import Mathlib

/-!
# Provider Adapter & Streaming Normalization Layer — verification

Shallow embedding of the MiniMax / Mistral provider adapter layer
(`src/platform/backend/src/routes/proxy/adapterV2/minimax.ts` and the
provider type schemas under `src/platform/backend/src/types/llm-providers/`),
together with a model of the tool-invocation policy evaluator
(whose implementation is not part of the source tree; only its test is).

Conventions of the embedding:
* TypeScript strings are Lean `String`s; `undefined`/`null` optional fields
  are `Option`; JavaScript truthiness tests on strings check non-emptiness
  where the typed schema permits the empty string, and are `Option.isSome`
  where the schema's enum values are never empty.
* JSON numbers are modelled as `Int` (the claims under study never depend
  on fractional numeric values).
* Mutable adapter state is passed explicitly: every method of a stateful
  class becomes a function `State → ... → State × Result` (or just
  `State → Result` when the source method performs no writes).
* Wall-clock reads (`Date.now()`) are modelled by explicit parameters or
  a boolean "first chunk seen" flag; no claim depends on timing values.
-/

namespace Archestra

-- =========================================================================
-- JSON value model
-- =========================================================================

mutual

/-- A JSON value (numbers restricted to integers). -/
inductive Json where
  | null : Json
  | bool (b : Bool) : Json
  | num (n : Int) : Json
  | str (s : String) : Json
  | arr (elems : JsonArr) : Json
  | obj (fields : JsonObj) : Json
  deriving DecidableEq

/-- Spine of a JSON array. -/
inductive JsonArr where
  | nil : JsonArr
  | cons (hd : Json) (tl : JsonArr) : JsonArr
  deriving DecidableEq

/-- Spine of a JSON object: ordered key/value fields. -/
inductive JsonObj where
  | nil : JsonObj
  | cons (key : String) (val : Json) (tl : JsonObj) : JsonObj
  deriving DecidableEq

end

/-- Decimal digit character for `n < 10`. -/
def digitChar (n : Nat) : Char := Char.ofNat (48 + n)

/-- Fuelled digit expansion (structural recursion so the kernel reduces it). -/
def natCharsAux : Nat → Nat → List Char
  | 0, _ => []
  | fuel + 1, n =>
      if n < 10 then [digitChar n]
      else natCharsAux fuel (n / 10) ++ [digitChar (n % 10)]

/-- Decimal digits of a natural number, most significant first. -/
def natChars (n : Nat) : List Char := natCharsAux (n + 1) n

/-- Decimal rendering of an integer, as `JSON.stringify` renders it. -/
def intChars (n : Int) : List Char :=
  if n < 0 then '-' :: natChars n.natAbs else natChars n.natAbs

/-- JSON string escaping of one character (quote and backslash only;
the inputs exercised by the claims contain no control characters). -/
def escChar (c : Char) : List Char :=
  if c = '"' ∨ c = '\\' then ['\\', c] else [c]

/-- JSON string escaping. -/
def escStr : List Char → List Char
  | [] => []
  | c :: t => escChar c ++ escStr t

mutual

/-- Serialization of a JSON value to characters, as `JSON.stringify`
produces it (no whitespace, fields in insertion order). -/
def serJson : Json → List Char
  | .null => "null".toList
  | .bool b => (cond b "true" "false").toList
  | .num n => intChars n
  | .str s => '"' :: (escStr s.toList ++ ['"'])
  | .arr xs => '[' :: (serArr xs ++ [']'])
  | .obj fs => '{' :: (serObj fs ++ ['}'])

/-- Comma-separated serializations of array elements. -/
def serArr : JsonArr → List Char
  | .nil => []
  | .cons x .nil => serJson x
  | .cons x (.cons y t) => serJson x ++ ',' :: serArr (.cons y t)

/-- Comma-separated serializations of object fields. -/
def serObj : JsonObj → List Char
  | .nil => []
  | .cons k v .nil => '"' :: (escStr k.toList ++ '"' :: ':' :: serJson v)
  | .cons k v (.cons k' v' t) =>
      ('"' :: (escStr k.toList ++ '"' :: ':' :: serJson v))
        ++ ',' :: serObj (.cons k' v' t)

end

/-- `JSON.stringify` on the JSON model. -/
def jsonStringify (v : Json) : String := String.mk (serJson v)

-- =========================================================================
-- JSON parser (model of JSON.parse, fuelled recursive descent)
-- =========================================================================

/-- Skip JSON whitespace. -/
def skipWs : List Char → List Char
  | c :: t =>
      if c = ' ' ∨ c = '\n' ∨ c = '\t' ∨ c = '\r' then skipWs t else c :: t
  | [] => []

/-- Parse the body of a JSON string literal (after the opening quote),
returning the decoded characters and the rest after the closing quote. -/
def parseStringBody : List Char → Option (List Char × List Char)
  | [] => none
  | '"' :: rest => some ([], rest)
  | '\\' :: e :: rest =>
      let decoded : Option Char :=
        if e = '"' then some '"'
        else if e = '\\' then some '\\'
        else if e = '/' then some '/'
        else if e = 'n' then some '\n'
        else if e = 't' then some '\t'
        else if e = 'r' then some '\r'
        else none
      match decoded with
      | none => none
      | some c =>
          match parseStringBody rest with
          | some (s, rest') => some (c :: s, rest')
          | none => none
  | c :: rest =>
      match parseStringBody rest with
      | some (s, rest') => some (c :: s, rest')
      | none => none

/-- Is `c` a decimal digit? -/
def isDigitChar (c : Char) : Bool := '0' ≤ c ∧ c ≤ '9'

/-- Parse a run of digits into a natural number accumulator. -/
def parseDigits : Nat → List Char → Nat × List Char
  | acc, c :: t =>
      if isDigitChar c then parseDigits (acc * 10 + (c.toNat - 48)) t
      else (acc, c :: t)
  | acc, [] => (acc, [])

/-- Strip an expected literal tail, character by character. -/
def stripLit : List Char → List Char → Option (List Char)
  | [], rest => some rest
  | e :: es, c :: cs => if c = e then stripLit es cs else none
  | _ :: _, [] => none

mutual

/-- Fuelled parser for one JSON value, dispatching on the first
non-whitespace character. -/
def parseVal (fuel : Nat) (input : List Char) : Option (Json × List Char) :=
  match fuel with
  | 0 => none
  | fuel + 1 =>
      match skipWs input with
      | [] => none
      | c :: rest =>
          if c = 'n' then
            (stripLit ['u', 'l', 'l'] rest).map fun r => (.null, r)
          else if c = 't' then
            (stripLit ['r', 'u', 'e'] rest).map fun r => (.bool true, r)
          else if c = 'f' then
            (stripLit ['a', 'l', 's', 'e'] rest).map fun r =>
              (.bool false, r)
          else if c = '"' then
            (parseStringBody rest).map fun sr =>
              (.str (String.mk sr.1), sr.2)
          else if c = '[' then
            match skipWs rest with
            | ']' :: rest' => some (.arr .nil, rest')
            | other =>
                (parseArrItems fuel other).map fun xr => (.arr xr.1, xr.2)
          else if c = '{' then
            match skipWs rest with
            | '}' :: rest' => some (.obj .nil, rest')
            | other =>
                (parseObjItems fuel other).map fun fr => (.obj fr.1, fr.2)
          else if c = '-' then
            match rest with
            | d :: rest' =>
                if isDigitChar d then
                  let nr := parseDigits (d.toNat - 48) rest'
                  some (.num (-(nr.1 : Int)), nr.2)
                else none
            | [] => none
          else if isDigitChar c then
            let nr := parseDigits (c.toNat - 48) rest
            some (.num (nr.1 : Int), nr.2)
          else none

/-- Fuelled parser for the items of a non-empty JSON array. -/
def parseArrItems (fuel : Nat) (input : List Char) :
    Option (JsonArr × List Char) :=
  match fuel with
  | 0 => none
  | fuel + 1 =>
      match parseVal fuel input with
      | none => none
      | some (v, rest) =>
          match skipWs rest with
          | ',' :: rest' =>
              (match parseArrItems fuel rest' with
               | some (xs, rest'') => some (.cons v xs, rest'')
               | none => none)
          | ']' :: rest' => some (.cons v .nil, rest')
          | _ => none

/-- Fuelled parser for the fields of a non-empty JSON object. -/
def parseObjItems (fuel : Nat) (input : List Char) :
    Option (JsonObj × List Char) :=
  match fuel with
  | 0 => none
  | fuel + 1 =>
      match skipWs input with
      | '"' :: rest =>
          (match parseStringBody rest with
           | none => none
           | some (k, rest') =>
               match skipWs rest' with
               | ':' :: rest'' =>
                   (match parseVal fuel rest'' with
                    | none => none
                    | some (v, rest''') =>
                        match skipWs rest''' with
                        | ',' :: r =>
                            (match parseObjItems fuel r with
                             | some (fs, r') =>
                                 some (.cons (String.mk k) v fs, r')
                             | none => none)
                        | '}' :: r => some (.cons (String.mk k) v .nil, r)
                        | _ => none)
               | _ => none)
      | _ => none

end

/-- `JSON.parse` on the JSON model: `none` models a thrown `SyntaxError`. -/
def jsonParse (s : String) : Option Json :=
  match parseVal (s.length + 1) s.toList with
  | some (v, rest) => if skipWs rest = [] then some v else none
  | none => none

-- =========================================================================
-- Infix pattern lemmas
-- =========================================================================

/-- The forbidden rendering of a structured value. -/
def objObjPat : List Char := "[object Object]".toList

theorem prefix_drop_mid {α} {p l₁ l₂ : List α} {c : α}
    (hc : c ∉ p) (h : p <+: l₁ ++ c :: l₂) : p <+: l₁ := by
  by_cases hlen : p.length ≤ l₁.length
  · obtain ⟨t, ht⟩ := h
    have hp : p = (l₁ ++ c :: l₂).take p.length := by
      rw [← ht, List.take_left']; rfl
    rw [List.take_append_of_le_length hlen] at hp
    rw [hp]
    exact List.take_prefix _ _
  · exfalso
    obtain ⟨t, ht⟩ := h
    push_neg at hlen
    have hlt : l₁.length < (p ++ t).length := by
      rw [List.length_append]; omega
    have h1 : (p ++ t).get ⟨l₁.length, hlt⟩ = p.get ⟨l₁.length, hlen⟩ := by
      simp [List.get_eq_getElem, List.getElem_append_left hlen]
    have h2 : (p ++ t).get ⟨l₁.length, hlt⟩ = c := by
      simp only [List.get_eq_getElem, ht]
      rw [List.getElem_append_right (Nat.le_refl _)]
      simp
    exact hc (h2 ▸ h1 ▸ List.get_mem p _ _)

theorem infix_drop_cons {α} {p l : List α} {c : α}
    (hc : c ∉ p) (h : p <:+: c :: l) : p <:+: l := by
  rcases List.infix_cons_iff.mp h with hp | hi
  · match p, hp with
    | [], _ => exact List.nil_infix
    | a :: p', hp =>
        exact absurd ((List.cons_prefix_cons.mp hp).1 ▸ List.mem_cons_self a p')
          hc
  · exact hi

theorem infix_split_mid {α} {p l₁ l₂ : List α} {c : α}
    (hc : c ∉ p) (h : p <:+: l₁ ++ c :: l₂) : p <:+: l₁ ∨ p <:+: l₂ := by
  induction l₁ with
  | nil => exact Or.inr (infix_drop_cons hc (by simpa using h))
  | cons a l₁' ih =>
    rw [List.cons_append] at h
    rcases List.infix_cons_iff.mp h with hp | hi
    · rcases p with _ | ⟨b, p'⟩
      · exact Or.inl List.nil_infix
      · obtain ⟨hb, hp'⟩ := List.cons_prefix_cons.mp hp
        subst hb
        have : (b :: p') <+: b :: l₁' :=
          List.cons_prefix_cons.mpr
            ⟨rfl, prefix_drop_mid (fun hm => hc (List.mem_cons_of_mem _ hm)) hp'⟩
        exact Or.inl this.isInfix
    · rcases ih hi with h1 | h2
      · exact Or.inl (List.infix_cons h1)
      · exact Or.inr h2

theorem infix_drop_concat {α} {p l : List α} {c : α}
    (hp : p ≠ []) (hc : c ∉ p) (h : p <:+: l ++ [c]) : p <:+: l := by
  rcases infix_split_mid hc h with h1 | h2
  · exact h1
  · exact absurd (List.infix_nil.mp h2) hp

theorem prefix_escStr {p l : List Char}
    (hq : '"' ∉ p) (hb : '\\' ∉ p) (h : p <+: escStr l) : p <+: l := by
  induction l generalizing p with
  | nil => simpa [escStr, List.prefix_nil] using h
  | cons c t ih =>
    rcases p with _ | ⟨a, p'⟩
    · exact List.nil_prefix
    · rw [escStr] at h
      by_cases hesc : c = '"' ∨ c = '\\'
      · rw [escChar, if_pos hesc] at h
        obtain ⟨ha, -⟩ := List.cons_prefix_cons.mp h
        exact absurd (ha ▸ List.mem_cons_self a p') hb
      · rw [escChar, if_neg hesc, List.singleton_append] at h
        obtain ⟨ha, hp'⟩ := List.cons_prefix_cons.mp h
        exact List.cons_prefix_cons.mpr
          ⟨ha, ih (fun hm => hq (List.mem_cons_of_mem _ hm))
            (fun hm => hb (List.mem_cons_of_mem _ hm)) hp'⟩

theorem infix_escStr {p l : List Char}
    (hq : '"' ∉ p) (hb : '\\' ∉ p) (h : p <:+: escStr l) : p <:+: l := by
  induction l with
  | nil => simpa [escStr] using h
  | cons c t ih =>
    rw [escStr] at h
    by_cases hesc : c = '"' ∨ c = '\\'
    · rw [escChar, if_pos hesc] at h
      have h1 : p <:+: c :: escStr t := by
        refine infix_drop_cons ?_ h
        rcases hesc with h' | h' <;> subst h' <;> assumption
      have h2 : p <:+: escStr t := by
        refine infix_drop_cons ?_ h1
        rcases hesc with h' | h' <;> subst h' <;> simp_all
      exact List.infix_cons (ih h2)
    · rw [escChar, if_neg hesc, List.singleton_append] at h
      rcases List.infix_cons_iff.mp h with hp | hi
      · rcases p with _ | ⟨a, p'⟩
        · exact List.nil_infix
        · obtain ⟨ha, hp'⟩ := List.cons_prefix_cons.mp hp
          have : (a :: p') <+: c :: t :=
            List.cons_prefix_cons.mpr
              ⟨ha, prefix_escStr (fun hm => hq (List.mem_cons_of_mem _ hm))
                (fun hm => hb (List.mem_cons_of_mem _ hm)) hp'⟩
          exact this.isInfix
      · exact List.infix_cons (ih hi)

theorem digitChar_isDigit {n : Nat} (h : n < 10) : isDigitChar (digitChar n) := by
  interval_cases n <;> decide

theorem natCharsAux_mem {fuel n : Nat} {c : Char}
    (h : c ∈ natCharsAux fuel n) : isDigitChar c := by
  induction fuel generalizing n with
  | zero => simp [natCharsAux] at h
  | succ fuel ih =>
    rw [natCharsAux] at h
    split at h
    · rw [List.mem_singleton] at h
      exact h ▸ digitChar_isDigit (by omega)
    · rcases List.mem_append.mp h with h1 | h1
      · exact ih h1
      · rw [List.mem_singleton] at h1
        exact h1 ▸ digitChar_isDigit (Nat.mod_lt _ (by omega))

theorem intChars_mem {n : Int} {c : Char} (h : c ∈ intChars n) :
    isDigitChar c ∨ c = '-' := by
  rw [intChars] at h
  split at h
  · rcases List.mem_cons.mp h with h1 | h1
    · exact Or.inr h1
    · exact Or.inl (natCharsAux_mem h1)
  · exact Or.inl (natCharsAux_mem h)

theorem natCharsAux_concat (fuel n : Nat) :
    natCharsAux (fuel + 1) n = [] ∨
      ∃ l k, natCharsAux (fuel + 1) n = l ++ [digitChar k] ∧ k < 10 := by
  rw [natCharsAux]
  split
  · exact Or.inr ⟨[], n, by simp, by omega⟩
  · exact Or.inr ⟨_, n % 10, rfl, Nat.mod_lt _ (by omega)⟩

theorem natChars_ne_nil (n : Nat) : natChars n ≠ [] := by
  rw [natChars, natCharsAux]
  split
  · simp
  · simp

/-- Characters a JSON serialization can start with. -/
def jsonHeadOk (c : Char) : Bool :=
  c = '"' ∨ c = '[' ∨ c = '{' ∨ c = 'n' ∨ c = 't' ∨ c = 'f' ∨ c = '-' ∨
    isDigitChar c

/-- Characters a JSON serialization can end with. -/
def jsonLastOk (c : Char) : Bool :=
  c = '"' ∨ c = ']' ∨ c = '}' ∨ c = 'l' ∨ c = 'e' ∨ isDigitChar c

theorem serJson_head (v : Json) :
    ∃ c l, serJson v = c :: l ∧ jsonHeadOk c := by
  match v with
  | .null => exact ⟨'n', "ull".toList, by decide, by decide⟩
  | .bool true => exact ⟨'t', "rue".toList, by decide, by decide⟩
  | .bool false => exact ⟨'f', "alse".toList, by decide, by decide⟩
  | .str s => exact ⟨'"', _, rfl, by decide⟩
  | .arr xs => exact ⟨'[', _, rfl, by decide⟩
  | .obj fs => exact ⟨'{', _, rfl, by decide⟩
  | .num n =>
      rw [serJson, intChars]
      split
      · exact ⟨'-', _, rfl, by decide⟩
      · rcases hn : natChars n.natAbs with _ | ⟨c, l⟩
        · exact absurd hn (natChars_ne_nil _)
        · refine ⟨c, l, rfl, ?_⟩
          have : c ∈ natChars n.natAbs := by rw [hn]; exact List.mem_cons_self _ _
          have := natCharsAux_mem this
          simp [jsonHeadOk, this]

theorem serJson_concat (v : Json) :
    ∃ l c, serJson v = l ++ [c] ∧ jsonLastOk c := by
  match v with
  | .null => exact ⟨"nul".toList, 'l', by decide, by decide⟩
  | .bool true => exact ⟨"tru".toList, 'e', by decide, by decide⟩
  | .bool false => exact ⟨"fals".toList, 'e', by decide, by decide⟩
  | .str s =>
      exact ⟨'"' :: escStr s.toList, '"', by rw [serJson]; simp, by decide⟩
  | .arr xs =>
      exact ⟨'[' :: serArr xs, ']', by rw [serJson]; simp, by decide⟩
  | .obj fs =>
      exact ⟨'{' :: serObj fs, '}', by rw [serJson]; simp, by decide⟩
  | .num n =>
      rw [serJson, intChars]
      rcases natCharsAux_concat n.natAbs n.natAbs with h | ⟨l, k, hl, hk⟩
      · exact absurd h (natChars_ne_nil _)
      · rw [natChars]
        split
        · exact ⟨'-' :: l, digitChar k, by rw [hl]; rfl,
            by simp [jsonLastOk, digitChar_isDigit hk]⟩
        · exact ⟨l, digitChar k, hl,
            by simp [jsonLastOk, digitChar_isDigit hk]⟩

/-- The string does not contain `"[object Object]"`. -/
def strNoPat (s : String) : Bool := !(decide (objObjPat <:+: s.toList))

mutual

/-- No string leaf of the JSON value contains `"[object Object]"`. -/
def jsonNoPat : Json → Bool
  | .null => true
  | .bool _ => true
  | .num _ => true
  | .str s => strNoPat s
  | .arr xs => arrNoPat xs
  | .obj fs => objNoPat fs

/-- Array form of `jsonNoPat`. -/
def arrNoPat : JsonArr → Bool
  | .nil => true
  | .cons x t => jsonNoPat x && arrNoPat t

/-- Object form of `jsonNoPat` (keys included). -/
def objNoPat : JsonObj → Bool
  | .nil => true
  | .cons k v t => strNoPat k && jsonNoPat v && objNoPat t

end

theorem strNoPat_iff {s : String} :
    strNoPat s = true ↔ ¬ objObjPat <:+: s.toList := by
  simp [strNoPat]

theorem not_pat_infix_bracket (body : List Char)
    (hno : ¬ objObjPat <:+: body)
    (hhead : ∀ l', body ≠ 'o' :: l')
    (hlast : ∀ l', body ≠ l' ++ ['t']) :
    ¬ objObjPat <:+: '[' :: body ++ [']'] := by
  rintro ⟨s, t, hst⟩
  rcases s with _ | ⟨a, s'⟩
  · rw [List.nil_append] at hst
    have hpat : objObjPat = '[' :: "object Object]".toList := by decide
    rw [hpat, List.cons_append] at hst
    injection hst with h1 h2
    rcases body with _ | ⟨b, body'⟩
    · simp only [List.append_eq, List.nil_append] at h2
      have hlen : ("object Object]".toList ++ t).length = 1 := by rw [h2]; rfl
      rw [List.length_append] at hlen
      have h14 : ("object Object]".toList).length = 14 := by decide
      rw [h14] at hlen
      omega
    · simp only [List.append_eq, List.cons_append] at h2
      injection h2 with h3 _
      exact hhead body' (by rw [← h3])
  · rw [List.cons_append, List.cons_append] at hst
    injection hst with ha hrest
    simp only [List.append_eq] at hrest
    rcases List.eq_nil_or_concat t with rfl | ⟨t₀, x, rfl⟩
    · rw [List.append_nil] at hrest
      have hpat : objObjPat = ("[object Objec".toList ++ ['t']) ++ [']'] := by
        decide
      rw [hpat, ← List.append_assoc] at hrest
      have h4 := (List.append_inj' hrest rfl).1
      exact hlast (s' ++ "[object Objec".toList)
        (by rw [← h4, List.append_assoc])
    · rw [List.concat_eq_append, ← List.append_assoc] at hrest
      have h4 := (List.append_inj' hrest rfl).1
      exact hno ⟨s', t₀, h4⟩

theorem serArr_head (xs : JsonArr) :
    serArr xs = [] ∨ ∃ c l, serArr xs = c :: l ∧ jsonHeadOk c := by
  match xs with
  | .nil => exact Or.inl rfl
  | .cons x .nil =>
      rw [serArr]
      exact Or.inr (serJson_head x)
  | .cons x (.cons y t) =>
      rw [serArr]
      obtain ⟨c, l, hcl, hok⟩ := serJson_head x
      exact Or.inr ⟨c, l ++ ',' :: serArr (.cons y t), by rw [hcl]; rfl, hok⟩

theorem serArr_concat (xs : JsonArr) :
    serArr xs = [] ∨ ∃ l c, serArr xs = l ++ [c] ∧ jsonLastOk c := by
  match xs with
  | .nil => exact Or.inl rfl
  | .cons x .nil =>
      rw [serArr]
      exact Or.inr (serJson_concat x)
  | .cons x (.cons y t) =>
      rw [serArr]
      rcases serArr_concat (.cons y t) with h | ⟨l, c, hl, hok⟩
      · exfalso
        obtain ⟨c, l, hcl, -⟩ := serJson_head y
        match t with
        | .nil => rw [serArr, hcl] at h; simp at h
        | .cons z u => rw [serArr, hcl] at h; simp at h
      · exact Or.inr ⟨serJson x ++ ',' :: l, c, by rw [hl]; simp, hok⟩

theorem entry_noPat (k : String) (v : Json) (hk : strNoPat k = true)
    (hv : ¬ objObjPat <:+: serJson v) :
    ¬ objObjPat <:+: '"' :: (escStr k.toList ++ '"' :: ':' :: serJson v) := by
  intro h
  have h1 := infix_drop_cons (by decide : '"' ∉ objObjPat) h
  rcases infix_split_mid (by decide : '"' ∉ objObjPat) h1 with h2 | h2
  · exact strNoPat_iff.mp hk (infix_escStr (by decide) (by decide) h2)
  · exact hv (infix_drop_cons (by decide : ':' ∉ objObjPat) h2)

mutual

/-- Serializing a JSON value whose string leaves avoid `"[object Object]"`
never produces that substring. -/
theorem serJson_noPat : ∀ v : Json, jsonNoPat v = true →
    ¬ objObjPat <:+: serJson v
  | .null, _ => by decide
  | .bool true, _ => by decide
  | .bool false, _ => by decide
  | .num n, _ => by
      intro h
      have ho : 'o' ∈ objObjPat := by decide
      have hmem := h.sublist.subset ho
      rw [serJson] at hmem
      rcases intChars_mem hmem with hd | hd
      · exact absurd hd (by decide)
      · exact absurd hd (by decide)
  | .str s, hv => by
      rw [serJson]
      intro h
      have h1 := infix_drop_cons (by decide : '"' ∉ objObjPat) h
      have h2 := infix_drop_concat (by decide : objObjPat ≠ [])
        (by decide : '"' ∉ objObjPat) h1
      have h3 := infix_escStr (by decide) (by decide) h2
      rw [jsonNoPat] at hv
      exact strNoPat_iff.mp hv h3
  | .arr xs, hv => by
      rw [serJson]
      rw [jsonNoPat] at hv
      refine not_pat_infix_bracket (serArr xs) (serArr_noPat xs hv) ?_ ?_
      · intro l' heq
        rcases serArr_head xs with h0 | ⟨c, l, hcl, hok⟩
        · rw [h0] at heq; simp at heq
        · rw [hcl] at heq
          injection heq with hc _
          rw [hc] at hok
          exact absurd hok (by decide)
      · intro l' heq
        rcases serArr_concat xs with h0 | ⟨l, c, hcl, hok⟩
        · rw [h0] at heq; simp at heq
        · rw [hcl] at heq
          have h5 := (List.append_inj' heq rfl).2
          injection h5 with hc _
          rw [hc] at hok
          exact absurd hok (by decide)
  | .obj fs, hv => by
      rw [serJson]
      rw [jsonNoPat] at hv
      intro h
      have h1 := infix_drop_cons (by decide : '{' ∉ objObjPat) h
      have h2 := infix_drop_concat (by decide : objObjPat ≠ [])
        (by decide : '}' ∉ objObjPat) h1
      exact serObj_noPat fs hv h2

/-- Array form of `serJson_noPat`. -/
theorem serArr_noPat : ∀ xs : JsonArr, arrNoPat xs = true →
    ¬ objObjPat <:+: serArr xs
  | .nil, _ => by decide
  | .cons x .nil, hv => by
      rw [serArr]
      rw [arrNoPat, Bool.and_eq_true] at hv
      exact serJson_noPat x hv.1
  | .cons x (.cons y t), hv => by
      rw [serArr]
      rw [arrNoPat, Bool.and_eq_true] at hv
      intro h
      rcases infix_split_mid (by decide : ',' ∉ objObjPat) h with h1 | h1
      · exact serJson_noPat x hv.1 h1
      · exact serArr_noPat (.cons y t) hv.2 h1

/-- Object form of `serJson_noPat`. -/
theorem serObj_noPat : ∀ fs : JsonObj, objNoPat fs = true →
    ¬ objObjPat <:+: serObj fs
  | .nil, _ => by decide
  | .cons k v .nil, hv => by
      rw [serObj]
      rw [objNoPat, Bool.and_eq_true, Bool.and_eq_true] at hv
      exact entry_noPat k v hv.1.1 (serJson_noPat v hv.1.2)
  | .cons k v (.cons k' v' t), hv => by
      rw [serObj]
      rw [objNoPat, Bool.and_eq_true, Bool.and_eq_true] at hv
      intro h
      rcases infix_split_mid (by decide : ',' ∉ objObjPat) h with h1 | h1
      · exact entry_noPat k v hv.1.1 (serJson_noPat v hv.1.2) h1
      · exact serObj_noPat (.cons k' v' t) hv.2 h1

end

-- =========================================================================
-- Tool-invocation policy evaluator (spec §4.6)
-- =========================================================================

/-- A proposed tool call handed to the policy evaluator: the arguments
always arrive as one string (`toolCallArgs: string`, spec §3). -/
structure ProposedToolCall where
  toolCallName : String
  toolCallArgs : String
  deriving DecidableEq

/-- Modelled from the spec: the externally stored per-agent policy row for
one tool (`allowUsageWhenUntrustedDataIsPresent` as exercised by
`tool-invocation.test.ts`, plus an argument-level path-prefix blocklist). -/
structure AgentToolPolicy where
  toolName : String
  allowUsageWhenUntrustedDataIsPresent : Bool
  blockedArgumentPrefixes : List String
  deriving DecidableEq

mutual

/-- String leaves of a JSON value, in serialization order. -/
def jsonStrLeaves : Json → List String
  | .null => []
  | .bool _ => []
  | .num _ => []
  | .str s => [s]
  | .arr xs => arrStrLeaves xs
  | .obj fs => objStrLeaves fs

/-- Array form of `jsonStrLeaves`. -/
def arrStrLeaves : JsonArr → List String
  | .nil => []
  | .cons x t => jsonStrLeaves x ++ arrStrLeaves t

/-- Object form of `jsonStrLeaves` (values only). -/
def objStrLeaves : JsonObj → List String
  | .nil => []
  | .cons _ v t => jsonStrLeaves v ++ objStrLeaves t

end

/-- Modelled from the spec: "arguments that arrive pre-serialized as a
string are parsed before re-serialization"; a string that fails to parse
is kept as a string leaf (parse-with-fallback, never throw). -/
def parsedArgsOf (call : ProposedToolCall) : Json :=
  (jsonParse call.toolCallArgs).getD (.str call.toolCallArgs)

/-- Modelled from the spec: "an argument-level rule matches (e.g., path
prefix blocklist)" — some string leaf of the parsed arguments starts with
a blocked prefix. -/
def argRuleMatches (policy : AgentToolPolicy) (call : ProposedToolCall) :
    Bool :=
  (jsonStrLeaves (parsedArgsOf call)).any fun leaf =>
    policy.blockedArgumentPrefixes.any fun p => p ≠ "" && p.isPrefixOf leaf

/-- Modelled from the spec: "a call is blocked when untrusted context is
present and the tool's policy disallows usage under untrusted conditions,
or when an argument-level rule matches"; a tool with no policy row is
allowed. -/
def callBlocked (policies : List AgentToolPolicy) (untrusted : Bool)
    (call : ProposedToolCall) : Bool :=
  match policies.find? (fun p => p.toolName == call.toolCallName) with
  | none => false
  | some p =>
      (untrusted && !p.allowUsageWhenUntrustedDataIsPresent)
        || argRuleMatches p call

/-- The JSON payload rendered into the refusal's `contentMessage`: the
blocked call's name and (parsed) arguments. -/
def refusalPayload (call : ProposedToolCall) : Json :=
  .obj (.cons "name" (.str call.toolCallName)
    (.cons "arguments" (parsedArgsOf call) .nil))

/-- Modelled from the spec: "a short, machine-taggable string embedding the
blocked tool's name ... wrapped in a fixed delimiter pair". -/
def refusalMessageOf (call : ProposedToolCall) : String :=
  "[[BLOCKED_TOOL:" ++ call.toolCallName ++ "]]"

/-- Modelled from the spec: "`contentMessage` — a fully JSON-serialized
rendering of the call (name + arguments)". -/
def contentMessageOf (call : ProposedToolCall) : String :=
  jsonStringify (refusalPayload call)

/-- Modelled from the spec: `evaluatePolicies(toolCalls, agentId,
untrustedContextPresent)` returns `null` when every call is allowed, and
otherwise the `[refusalMessage, contentMessage]` pair for a blocked call
(the implementation `tool-invocation.ts` is not part of the source tree;
only its test is). The policy rows for the agent are an explicit
parameter, standing for the external policy storage. -/
def evaluatePolicies (policies : List AgentToolPolicy)
    (toolCalls : List ProposedToolCall) (_agentId : String)
    (untrusted : Bool) : Option (String × String) :=
  match toolCalls.find? (callBlocked policies untrusted) with
  | none => none
  | some call => some (refusalMessageOf call, contentMessageOf call)

/-- Neither the call's name nor any string leaf of its parsed arguments
contains `"[object Object]"`. -/
def callNoPat (call : ProposedToolCall) : Bool :=
  strNoPat call.toolCallName && jsonNoPat (parsedArgsOf call)

/-- **C1** (counterexample): as literally stated, the claim fails when the
blocked call's own argument data contains the text `"[object Object]"` —
the JSON re-serialization necessarily reproduces it. -/
theorem C1_counterexample :
    evaluatePolicies [⟨"test-tool", false, []⟩]
        [⟨"test-tool", "\x7b\"a\":\"[object Object]\"\x7d"⟩] "agent-1" true =
      some ("[[BLOCKED_TOOL:test-tool]]",
        "\x7b\"name\":\"test-tool\",\"arguments\":\x7b\"a\":\"[object Object]\"\x7d\x7d")
    ∧ objObjPat <:+:
        "\x7b\"name\":\"test-tool\",\"arguments\":\x7b\"a\":\"[object Object]\"\x7d\x7d".toList := by
  constructor
  · decide
  · decide

/-- **C1** (amended): whenever `evaluatePolicies` blocks a call, the
returned `contentMessage` is exactly the JSON serialization of the blocked
call's name and parsed arguments, and — provided the text
`"[object Object]"` does not occur in the call's own name or argument
strings — the serialization never contains that substring. -/
theorem C1_refusal_content_serialized (policies : List AgentToolPolicy)
    (toolCalls : List ProposedToolCall) (agentId : String) (untrusted : Bool)
    (r c : String)
    (h : evaluatePolicies policies toolCalls agentId untrusted = some (r, c))
    (hclean : ∀ call ∈ toolCalls, callNoPat call = true) :
    (∃ call ∈ toolCalls, callBlocked policies untrusted call = true ∧
        c = jsonStringify (refusalPayload call)) ∧
      ¬ objObjPat <:+: c.toList := by
  rw [evaluatePolicies] at h
  rcases hf : toolCalls.find? (callBlocked policies untrusted) with _ | call
  · rw [hf] at h
    exact absurd h (by simp)
  · rw [hf] at h
    have hmem := List.mem_of_find?_eq_some hf
    have hblocked := List.find?_some hf
    have hcall := hclean call hmem
    rw [callNoPat, Bool.and_eq_true] at hcall
    injection h with h'
    have hc : c = contentMessageOf call := (Prod.mk.injEq _ _ _ _ ▸ h').2.symm
    refine ⟨⟨call, hmem, hblocked, hc⟩, ?_⟩
    rw [hc]
    show ¬ objObjPat <:+: serJson (refusalPayload call)
    apply serJson_noPat
    rw [refusalPayload, jsonNoPat, objNoPat, objNoPat, objNoPat, jsonNoPat]
    simp [hcall.1, hcall.2]
    constructor
    · decide
    · decide

/-- **C1** (witness): the amended theorem applied to the test's
`file-reader` scenario. -/
theorem C1_witness :
    (∃ call ∈
        [(⟨"file-reader", "\x7b\"path\": \"/etc/passwd\", \"mode\": \"read\"\x7d"⟩ :
          ProposedToolCall)],
        callBlocked [⟨"file-reader", false, []⟩] true call = true ∧
          "\x7b\"name\":\"file-reader\",\"arguments\":\x7b\"path\":\"/etc/passwd\",\"mode\":\"read\"\x7d\x7d" =
            jsonStringify (refusalPayload call)) ∧
      ¬ objObjPat <:+:
        "\x7b\"name\":\"file-reader\",\"arguments\":\x7b\"path\":\"/etc/passwd\",\"mode\":\"read\"\x7d\x7d".toList :=
  C1_refusal_content_serialized [⟨"file-reader", false, []⟩]
    [⟨"file-reader", "\x7b\"path\": \"/etc/passwd\", \"mode\": \"read\"\x7d"⟩]
    "agent-1" true "[[BLOCKED_TOOL:file-reader]]"
    "\x7b\"name\":\"file-reader\",\"arguments\":\x7b\"path\":\"/etc/passwd\",\"mode\":\"read\"\x7d\x7d"
    (by decide) (by decide)

-- =========================================================================
-- Provider message / request model (MiniMax & Mistral are OpenAI-compatible)
-- =========================================================================

/-- Message content: a plain string or an array of text parts. -/
inductive MsgContent where
  | str (s : String)
  | parts (ps : List String)
  deriving DecidableEq

/-- An assistant-message tool call. Both providers' message schemas make
`type` the single literal `"function"`, so the `type === "function"` test
in the MiniMax adapter is statically always true and the field is
omitted from the embedding. -/
structure MToolCall where
  id : String
  name : String
  arguments : String
  deriving DecidableEq

/-- A request message (covering the MiniMax and Mistral message schemas;
Mistral requests simply never contain the developer/function roles). -/
inductive Msg where
  | system (content : MsgContent) (name : Option String)
  | developer (content : MsgContent) (name : Option String)
  | user (content : MsgContent) (name : Option String)
  | assistant (content : Option MsgContent)
      (tool_calls : Option (List MToolCall)) (name : Option String)
  | tool (content : MsgContent) (tool_call_id : String)
  | funcRole (content : Option String) (name : String)
  deriving DecidableEq

/-- The wire `role` string of a message. -/
def Msg.role : Msg → String
  | .system .. => "system"
  | .developer .. => "developer"
  | .user .. => "user"
  | .assistant .. => "assistant"
  | .tool .. => "tool"
  | .funcRole .. => "function"

/-- A tool offered in the request (`function` or `custom` union). -/
inductive MTool where
  | func (name : String) (description : Option String)
      (parameters : Option Json)
  | custom (name : String) (description : Option String)
  deriving DecidableEq

/-- A chat-completions request (fields the adapters read or rebuild). -/
structure MRequest where
  model : String
  messages : List Msg
  tools : Option (List MTool)
  stream : Option Bool
  temperature : Option Int
  max_tokens : Option Int
  deriving DecidableEq

-- =========================================================================
-- Canonical (common) model
-- =========================================================================

/-- The `unknown`-typed content of a canonical tool result: the parsed
JSON when the wire content was a string that parses, the raw string on
parse failure, or the untouched parts array. -/
inductive ToolResultContent where
  | json (v : Json)
  | raw (s : String)
  | parts (ps : List String)
  deriving DecidableEq

/-- Canonical tool result (`CommonToolResult`). -/
structure CommonToolResult where
  id : String
  name : String
  content : ToolResultContent
  isError : Bool
  deriving DecidableEq

/-- Canonical message as built by `toCommonFormat`: the role, plus a
`toolCalls` list only when attached. -/
structure CommonMessage where
  role : String
  toolCalls : Option (List CommonToolResult)
  deriving DecidableEq

/-- Canonical tool definition (`CommonMcpToolDefinition`). -/
structure CommonMcpToolDefinition where
  name : String
  description : Option String
  inputSchema : Option Json
  deriving DecidableEq

/-- Parse-with-fallback on tool message content (`JSON.parse` in a
`try`/`catch`, non-string content passed through). -/
def toolResultContentOf : MsgContent → ToolResultContent
  | .str s =>
      match jsonParse s with
      | some v => .json v
      | none => .raw s
  | .parts ps => .parts ps

-- =========================================================================
-- Request adapters (MinimaxRequestAdapter / MistralRequestAdapter)
-- =========================================================================

/-- The private fields of a request adapter instance (both providers'
classes carry exactly these three). -/
structure RequestAdapterState where
  request : MRequest
  modifiedModel : Option String
  toolResultUpdates : List (String × String)
  deriving DecidableEq

/-- A fresh adapter as built by the constructor. -/
def mkRequestAdapter (request : MRequest) : RequestAdapterState :=
  ⟨request, none, []⟩

/-- JS-object write `m[k] = v` on a string-keyed record kept as an
association list with unique keys. -/
def recordSet (m : List (String × String)) (k v : String) :
    List (String × String) :=
  if m.any (fun kv => kv.1 = k) then
    m.map fun kv => if kv.1 = k then (k, v) else kv
  else m ++ [(k, v)]

/-- JS-object read `m[k]`. -/
def recordGet (m : List (String × String)) (k : String) : Option String :=
  (m.find? (fun kv => kv.1 = k)).map (·.2)

/-- The descending-index scan shared by both `findToolNameInMessages`
implementations, expressed as a forward scan of the reversed list. -/
def findToolNameAux (toolCallId : String) : List Msg → Option String
  | [] => none
  | .assistant _ tcs _ :: rest =>
      (match tcs with
       | some l =>
           match l.find? (fun tc => tc.id == toolCallId) with
           | some tc => some tc.name
           | none => findToolNameAux toolCallId rest
       | none => findToolNameAux toolCallId rest)
  | _ :: rest => findToolNameAux toolCallId rest

/-- `MinimaxRequestAdapter.findToolNameInMessages` (its
`toolCall.type === "function"` guard is statically true, see `MToolCall`). -/
def minimaxFindToolNameInMessages (messages : List Msg)
    (toolCallId : String) : Option String :=
  findToolNameAux toolCallId messages.reverse

/-- `MistralRequestAdapter.findToolNameInMessages` (textually the same
loop without the vacuous type guard). -/
def mistralFindToolNameInMessages (messages : List Msg)
    (toolCallId : String) : Option String :=
  findToolNameAux toolCallId messages.reverse

/-- `MinimaxRequestAdapter.getModel`. -/
def minimaxGetModel (s : RequestAdapterState) : String :=
  s.modifiedModel.getD s.request.model

/-- `MinimaxRequestAdapter.isStreaming`. -/
def minimaxIsStreaming (s : RequestAdapterState) : Bool :=
  s.request.stream = some true

/-- `MinimaxRequestAdapter.getToolResults`. -/
def minimaxGetToolResults (req : MRequest) : List CommonToolResult :=
  req.messages.filterMap fun m =>
    match m with
    | .tool content tool_call_id =>
        some { id := tool_call_id,
               name := (minimaxFindToolNameInMessages req.messages
                 tool_call_id).getD "unknown",
               content := toolResultContentOf content,
               isError := false }
    | _ => none

/-- `MistralRequestAdapter.getToolResults` (textually identical source). -/
def mistralGetToolResults (req : MRequest) : List CommonToolResult :=
  req.messages.filterMap fun m =>
    match m with
    | .tool content tool_call_id =>
        some { id := tool_call_id,
               name := (mistralFindToolNameInMessages req.messages
                 tool_call_id).getD "unknown",
               content := toolResultContentOf content,
               isError := false }
    | _ => none

/-- `MinimaxRequestAdapter.toCommonFormat`. -/
def minimaxToCommonFormat (messages : List Msg) : List CommonMessage :=
  messages.map fun m =>
    match m with
    | .tool content tool_call_id =>
        (match minimaxFindToolNameInMessages messages tool_call_id with
         | some toolName =>
             { role := "tool",
               toolCalls := some [⟨tool_call_id, toolName,
                 toolResultContentOf content, false⟩] }
         | none => { role := "tool", toolCalls := none })
    | other => { role := other.role, toolCalls := none }

/-- `MistralRequestAdapter.toCommonFormat` (textually identical source). -/
def mistralToCommonFormat (messages : List Msg) : List CommonMessage :=
  messages.map fun m =>
    match m with
    | .tool content tool_call_id =>
        (match mistralFindToolNameInMessages messages tool_call_id with
         | some toolName =>
             { role := "tool",
               toolCalls := some [⟨tool_call_id, toolName,
                 toolResultContentOf content, false⟩] }
         | none => { role := "tool", toolCalls := none })
    | other => { role := other.role, toolCalls := none }

/-- `getMessages` on either adapter. -/
def minimaxGetMessages (s : RequestAdapterState) : List CommonMessage :=
  minimaxToCommonFormat s.request.messages

/-- `MistralRequestAdapter.getMessages`. -/
def mistralGetMessages (s : RequestAdapterState) : List CommonMessage :=
  mistralToCommonFormat s.request.messages

/-- `getTools` on either adapter: function tools only, custom skipped. -/
def minimaxGetTools (req : MRequest) : List CommonMcpToolDefinition :=
  match req.tools with
  | none => []
  | some tools =>
      tools.filterMap fun t =>
        match t with
        | .func name description parameters =>
            some ⟨name, description, parameters⟩
        | .custom _ _ => none

/-- `hasTools`: `(tools?.length ?? 0) > 0`. -/
def minimaxHasTools (req : MRequest) : Bool :=
  ((req.tools.map List.length).getD 0) > 0

/-- `setModel`. -/
def minimaxSetModel (s : RequestAdapterState) (model : String) :
    RequestAdapterState :=
  { s with modifiedModel := some model }

/-- `updateToolResult`. -/
def minimaxUpdateToolResult (s : RequestAdapterState)
    (toolCallId newContent : String) : RequestAdapterState :=
  { s with toolResultUpdates :=
      recordSet s.toolResultUpdates toolCallId newContent }

/-- `applyToolResultUpdates` (`Object.assign` onto the buffered map). -/
def minimaxApplyToolResultUpdates (s : RequestAdapterState)
    (updates : List (String × String)) : RequestAdapterState :=
  { s with toolResultUpdates :=
      updates.foldl (fun m kv => recordSet m kv.1 kv.2) s.toolResultUpdates }

/-- `applyUpdates`: rebuilds tool messages whose id has a (truthy) queued
update; all other messages are returned untouched. -/
def requestApplyUpdates (messages : List Msg)
    (updates : List (String × String)) : List Msg :=
  if updates.length = 0 then messages
  else
    messages.map fun m =>
      match m with
      | .tool _ tool_call_id =>
          (match recordGet updates tool_call_id with
           | some v => if v ≠ "" then .tool (.str v) tool_call_id else m
           | none => m)
      | _ => m

/-- `MinimaxRequestAdapter.toProviderRequest`. -/
def minimaxToProviderRequest (s : RequestAdapterState) : MRequest :=
  let messages :=
    if s.toolResultUpdates.length > 0 then
      requestApplyUpdates s.request.messages s.toolResultUpdates
    else s.request.messages
  { s.request with model := minimaxGetModel s, messages := messages }

/-- `MistralRequestAdapter.toProviderRequest` (textually identical). -/
def mistralToProviderRequest (s : RequestAdapterState) : MRequest :=
  minimaxToProviderRequest s

-- =========================================================================
-- C7: accessor purity and toProviderRequest idempotence
-- =========================================================================

/-- The read accessors of a request adapter. -/
inductive AccessorOp where
  | getModel
  | isStreaming
  | getMessages
  | getToolResults
  | getTools
  | hasTools
  | getProviderMessages
  | getOriginalRequest
  deriving DecidableEq

/-- The value an accessor returns. -/
inductive AccessorValue where
  | str (s : String)
  | bool (b : Bool)
  | msgs (l : List CommonMessage)
  | results (l : List CommonToolResult)
  | tools (l : List CommonMcpToolDefinition)
  | provMsgs (l : List Msg)
  | req (r : MRequest)
  deriving DecidableEq

/-- One accessor call on the MiniMax adapter; the source methods contain
no field writes, so the state component is the input state. -/
def minimaxRunAccessor (s : RequestAdapterState) :
    AccessorOp → RequestAdapterState × AccessorValue
  | .getModel => (s, .str (minimaxGetModel s))
  | .isStreaming => (s, .bool (minimaxIsStreaming s))
  | .getMessages => (s, .msgs (minimaxGetMessages s))
  | .getToolResults => (s, .results (minimaxGetToolResults s.request))
  | .getTools => (s, .tools (minimaxGetTools s.request))
  | .hasTools => (s, .bool (minimaxHasTools s.request))
  | .getProviderMessages => (s, .provMsgs s.request.messages)
  | .getOriginalRequest => (s, .req s.request)

/-- One accessor call on the Mistral adapter. -/
def mistralRunAccessor (s : RequestAdapterState) :
    AccessorOp → RequestAdapterState × AccessorValue
  | .getModel => (s, .str (minimaxGetModel s))
  | .isStreaming => (s, .bool (minimaxIsStreaming s))
  | .getMessages => (s, .msgs (mistralGetMessages s))
  | .getToolResults => (s, .results (mistralGetToolResults s.request))
  | .getTools => (s, .tools (minimaxGetTools s.request))
  | .hasTools => (s, .bool (minimaxHasTools s.request))
  | .getProviderMessages => (s, .provMsgs s.request.messages)
  | .getOriginalRequest => (s, .req s.request)

/-- Run a sequence of accessor calls, threading the state. -/
def minimaxRunAccessors (s : RequestAdapterState) (ops : List AccessorOp) :
    RequestAdapterState :=
  ops.foldl (fun st op => (minimaxRunAccessor st op).1) s

/-- Run a sequence of accessor calls on the Mistral adapter. -/
def mistralRunAccessors (s : RequestAdapterState) (ops : List AccessorOp) :
    RequestAdapterState :=
  ops.foldl (fun st op => (mistralRunAccessor st op).1) s

theorem minimaxRunAccessor_fst (s : RequestAdapterState) (op : AccessorOp) :
    (minimaxRunAccessor s op).1 = s := by cases op <;> rfl

theorem mistralRunAccessor_fst (s : RequestAdapterState) (op : AccessorOp) :
    (mistralRunAccessor s op).1 = s := by cases op <;> rfl

theorem minimaxRunAccessors_id (s : RequestAdapterState)
    (ops : List AccessorOp) : minimaxRunAccessors s ops = s := by
  induction ops generalizing s with
  | nil => rfl
  | cons op rest ih =>
      rw [minimaxRunAccessors, List.foldl_cons, minimaxRunAccessor_fst]
      exact ih s

theorem mistralRunAccessors_id (s : RequestAdapterState)
    (ops : List AccessorOp) : mistralRunAccessors s ops = s := by
  induction ops generalizing s with
  | nil => rfl
  | cons op rest ih =>
      rw [mistralRunAccessors, List.foldl_cons, mistralRunAccessor_fst]
      exact ih s

/-- **C7**: accessor calls leave the adapter state untouched, so
`toProviderRequest()` applied before and after any sequence of accessor
calls — with no intervening mutation — yields identical output, for both
the MiniMax and the Mistral request adapter. -/
theorem C7_toProviderRequest_idempotent (s : RequestAdapterState)
    (ops : List AccessorOp) :
    minimaxRunAccessors s ops = s ∧
    minimaxToProviderRequest (minimaxRunAccessors s ops) =
      minimaxToProviderRequest s ∧
    mistralRunAccessors s ops = s ∧
    mistralToProviderRequest (mistralRunAccessors s ops) =
      mistralToProviderRequest s := by
  have h1 := minimaxRunAccessors_id s ops
  have h2 := mistralRunAccessors_id s ops
  exact ⟨h1, by rw [h1], h2, by rw [h2]⟩

-- =========================================================================
-- C9 / C10: tool-result correlation
-- =========================================================================

/-- Specification-side rendering of §4.2's correlation rule: scan backward
through the message list for the most recent assistant message whose
tool-call list contains a tool call with a matching id. -/
def specToolNameScanBackward (messages : List Msg) (toolCallId : String) :
    Option String :=
  messages.reverse.findSome? fun m =>
    match m with
    | .assistant _ (some tcs) _ =>
        (tcs.find? (fun tc => tc.id == toolCallId)).map (·.name)
    | _ => none

theorem findToolNameAux_eq_findSome? (toolCallId : String) (l : List Msg) :
    findToolNameAux toolCallId l = l.findSome? (fun m =>
      match m with
      | .assistant _ (some tcs) _ =>
          (tcs.find? (fun tc => tc.id == toolCallId)).map (·.name)
      | _ => none) := by
  induction l with
  | nil => rfl
  | cons m rest ih =>
    cases m with
    | assistant content tcs name =>
        cases tcs with
        | none => simpa [findToolNameAux, List.findSome?_cons] using ih
        | some tcl =>
            cases hfind : tcl.find? (fun tc => tc.id == toolCallId) with
            | none => simp [findToolNameAux, List.findSome?_cons, hfind, ih]
            | some tc => simp [findToolNameAux, List.findSome?_cons, hfind]
    | system c n => simpa [findToolNameAux, List.findSome?_cons] using ih
    | developer c n => simpa [findToolNameAux, List.findSome?_cons] using ih
    | user c n => simpa [findToolNameAux, List.findSome?_cons] using ih
    | tool c i => simpa [findToolNameAux, List.findSome?_cons] using ih
    | funcRole c n => simpa [findToolNameAux, List.findSome?_cons] using ih

/-- **C9**: both adapters name a tool result by the backward scan for the
most recent assistant message carrying a matching tool-call id, and
`getToolResults` yields — without failing — one entry per tool-role
message whose name falls back to `"unknown"` when the scan finds nothing. -/
theorem C9_tool_result_backscan_unknown (req : MRequest) :
    (∀ toolCallId, minimaxFindToolNameInMessages req.messages toolCallId =
        specToolNameScanBackward req.messages toolCallId) ∧
    (∀ toolCallId, mistralFindToolNameInMessages req.messages toolCallId =
        specToolNameScanBackward req.messages toolCallId) ∧
    minimaxGetToolResults req = req.messages.filterMap (fun m =>
      match m with
      | .tool content tool_call_id =>
          some ⟨tool_call_id,
            (specToolNameScanBackward req.messages tool_call_id).getD
              "unknown",
            toolResultContentOf content, false⟩
      | _ => none) ∧
    mistralGetToolResults req = req.messages.filterMap (fun m =>
      match m with
      | .tool content tool_call_id =>
          some ⟨tool_call_id,
            (specToolNameScanBackward req.messages tool_call_id).getD
              "unknown",
            toolResultContentOf content, false⟩
      | _ => none) := by
  have hscan : ∀ toolCallId,
      minimaxFindToolNameInMessages req.messages toolCallId =
        specToolNameScanBackward req.messages toolCallId := fun toolCallId =>
    findToolNameAux_eq_findSome? toolCallId req.messages.reverse
  refine ⟨hscan, hscan, ?_, ?_⟩
  · rw [minimaxGetToolResults]
    apply List.filterMap_congr
    intro m _
    cases m <;> simp [hscan]
  · have hscan' : ∀ toolCallId,
        mistralFindToolNameInMessages req.messages toolCallId =
          specToolNameScanBackward req.messages toolCallId := hscan
    rw [mistralGetToolResults]
    apply List.filterMap_congr
    intro m _
    cases m <;> simp [hscan']

/-- **C10**: a tool-role message whose id matches no assistant tool call
becomes a canonical message carrying only the role — no `toolCalls` at
all, so its content is absent from the canonical list — while
`getToolResults` still reports the same result under the name
`"unknown"`, for both adapters. -/
theorem C10_unmatched_tool_result_dropped (req : MRequest) (i : Nat)
    (content : MsgContent) (id : String)
    (hm : req.messages[i]? = some (.tool content id))
    (hnone : minimaxFindToolNameInMessages req.messages id = none) :
    (minimaxToCommonFormat req.messages)[i]? =
      some ⟨"tool", none⟩ ∧
    (mistralToCommonFormat req.messages)[i]? =
      some ⟨"tool", none⟩ ∧
    (⟨id, "unknown", toolResultContentOf content, false⟩ :
        CommonToolResult) ∈ minimaxGetToolResults req ∧
    (⟨id, "unknown", toolResultContentOf content, false⟩ :
        CommonToolResult) ∈ mistralGetToolResults req := by
  have hnone' : mistralFindToolNameInMessages req.messages id = none := hnone
  have hmem : (.tool content id : Msg) ∈ req.messages :=
    List.mem_iff_getElem?.mpr ⟨i, hm⟩
  refine ⟨?_, ?_, ?_, ?_⟩
  · rw [minimaxToCommonFormat, List.getElem?_map, hm, Option.map_some']
    simp [hnone]
  · rw [mistralToCommonFormat, List.getElem?_map, hm, Option.map_some']
    simp [hnone']
  · rw [minimaxGetToolResults]
    refine List.mem_filterMap.mpr ⟨.tool content id, hmem, ?_⟩
    simp [hnone]
  · rw [mistralGetToolResults]
    refine List.mem_filterMap.mpr ⟨.tool content id, hmem, ?_⟩
    simp [hnone']

/-- **C10** (witness): a one-message request whose tool result matches no
assistant tool call. -/
theorem C10_witness :
    (minimaxToCommonFormat [.tool (.str "out") "call-9"])[0]? =
      some ⟨"tool", none⟩ ∧
    (mistralToCommonFormat [.tool (.str "out") "call-9"])[0]? =
      some ⟨"tool", none⟩ ∧
    (⟨"call-9", "unknown", toolResultContentOf (.str "out"), false⟩ :
        CommonToolResult) ∈
      minimaxGetToolResults ⟨"m", [.tool (.str "out") "call-9"], none,
        none, none, none⟩ ∧
    (⟨"call-9", "unknown", toolResultContentOf (.str "out"), false⟩ :
        CommonToolResult) ∈
      mistralGetToolResults ⟨"m", [.tool (.str "out") "call-9"], none,
        none, none, none⟩ :=
  C10_unmatched_tool_result_dropped
    ⟨"m", [.tool (.str "out") "call-9"], none, none, none, none⟩ 0
    (.str "out") "call-9" (by decide) (by decide)

-- =========================================================================
-- TOON compression (spec §4.5)
-- =========================================================================

/-- Model of the external tokenizer consumed by the compressor (spec §6):
one token per character. The claims depend only on whether the repo code
compares token counts at all, not on the tokenizer's exact segmentation. -/
def tokenCount (s : String) : Nat := s.length

/-- Length of a JSON array. -/
def jsonArrLen : JsonArr → Nat
  | .nil => 0
  | .cons _ t => jsonArrLen t + 1

mutual

/-- Model of the external `@toon-format/toon` encoder: the spec's
"table-oriented compact re-encoding of verbose JSON" — scalars bare,
arrays as `[N]: v1,v2,...`, objects as `key: value` lines. -/
def toonVal : Json → String
  | .null => "null"
  | .bool true => "true"
  | .bool false => "false"
  | .num n => String.mk (intChars n)
  | .str s => s
  | .arr xs =>
      "[" ++ String.mk (natChars (jsonArrLen xs)) ++ "]: " ++ toonArr xs
  | .obj fs => toonObj fs

/-- Comma-joined TOON renderings of array elements. -/
def toonArr : JsonArr → String
  | .nil => ""
  | .cons x .nil => toonVal x
  | .cons x (.cons y t) => toonVal x ++ "," ++ toonArr (.cons y t)

/-- Newline-joined `key: value` TOON lines of object fields. -/
def toonObj : JsonObj → String
  | .nil => ""
  | .cons k v .nil => k ++ ": " ++ toonVal v
  | .cons k v (.cons k' v' t) =>
      k ++ ": " ++ toonVal v ++ "\n" ++ toonObj (.cons k' v' t)

end

/-- Model of the external `toonEncode(parsed, {tokenizer, maxTokens})`
call made by the MiniMax compressor: `wasCompressed` is true exactly when
the compact form is strictly smaller in token count than the canonical
JSON serialization and fits the budget (spec §4.5). -/
def toonEncodeWithBudget (v : Json) (maxTokens : Nat) : String × Bool :=
  let compact := toonVal v
  if tokenCount compact < tokenCount (jsonStringify v) ∧
      tokenCount compact ≤ maxTokens then
    (compact, true)
  else (jsonStringify v, false)

/-- Array of `{type: "text", text}` content parts as a JSON value. -/
def partsToJsonArr : List String → JsonArr
  | [] => .nil
  | p :: t =>
      .cons (.obj (.cons "type" (.str "text") (.cons "text" (.str p) .nil)))
        (partsToJsonArr t)

/-- `typeof content === "string" ? content : JSON.stringify(content)`. -/
def contentSerialized : MsgContent → String
  | .str s => s
  | .parts ps => jsonStringify (.arr (partsToJsonArr ps))

/-- The compression statistics accumulated by the MiniMax compressor. -/
structure ToolCompressionStats where
  originalBytes : Nat
  compressedBytes : Nat
  removedBytes : Nat
  compressedCount : Nat
  removedCount : Nat
  deriving DecidableEq

/-- One message of MiniMax's `convertToolResultsToToon`: serialize, parse
(parse failure falls through to the untouched branch), substitute only
when the encoder reports `wasCompressed`. -/
def minimaxToonStep (stats : ToolCompressionStats) (m : Msg) :
    ToolCompressionStats × Msg :=
  match m with
  | .tool content tool_call_id =>
      let originalContent := contentSerialized content
      let stats := { stats with
        originalBytes := stats.originalBytes + originalContent.length }
      (match jsonParse originalContent with
       | some parsed =>
           let enc := toonEncodeWithBudget parsed 4000
           if enc.2 then
             ({ stats with
                 compressedCount := stats.compressedCount + 1,
                 compressedBytes :=
                   stats.compressedBytes + enc.1.length },
              .tool (.str enc.1) tool_call_id)
           else
             ({ stats with compressedBytes :=
                 stats.compressedBytes + originalContent.length }, m)
       | none =>
           ({ stats with compressedBytes :=
               stats.compressedBytes + originalContent.length }, m))
  | _ => (stats, m)

/-- Left-to-right traversal of MiniMax's `convertToolResultsToToon`,
threading the mutable stats object. -/
def minimaxToonGo (stats : ToolCompressionStats) :
    List Msg → List Msg × ToolCompressionStats
  | [] => ([], stats)
  | m :: rest =>
      let step := minimaxToonStep stats m
      let tail := minimaxToonGo step.1 rest
      (step.2 :: tail.1, tail.2)

/-- `convertToolResultsToToon` (MiniMax). The `model` argument selects
the external tokenizer, which this embedding models uniformly. -/
def minimaxConvertToolResultsToToon (messages : List Msg)
    (_model : String) : List Msg × ToolCompressionStats :=
  minimaxToonGo ⟨0, 0, 0, 0, 0⟩ messages

/-- `MinimaxRequestAdapter.applyToonCompression`. -/
def minimaxApplyToonCompression (s : RequestAdapterState) (model : String) :
    RequestAdapterState × ToolCompressionStats :=
  let conv := minimaxConvertToolResultsToToon s.request.messages model
  ({ s with request := { s.request with messages := conv.1 } }, conv.2)

/-- Modelled from the spec: `unwrapToolContent` ("unwrapping any prior
double-encoding"; the util's source is not under src/): a JSON-encoded
string literal is unwrapped one level, anything else kept. -/
def unwrapToolContent (s : String) : String :=
  match jsonParse s with
  | some (.str inner) => inner
  | _ => s

/-- One message of Mistral's `convertToolResultsToToon`: when the content
is a string whose unwrapped form parses as JSON, the compact encoding is
substituted unconditionally (no token-count comparison); the returned
pair of token counts feeds only the reported stats. -/
def mistralToonStep (m : Msg) : Msg × Option (Nat × Nat) :=
  match m with
  | .tool (.str s) tool_call_id =>
      let unwrapped := unwrapToolContent s
      (match jsonParse unwrapped with
       | some parsed =>
           let compressed := toonVal parsed
           (.tool (.str compressed) tool_call_id,
            some (tokenCount unwrapped, tokenCount compressed))
       | none => (m, none))
  | _ => (m, none)

/-- The token totals Mistral's compressor reports (`null` when no tool
result was processed); the cost-savings price lookup is an external
database call and is not modelled. -/
structure MistralToonStats where
  toonTokensBefore : Option Nat
  toonTokensAfter : Option Nat
  deriving DecidableEq

/-- `convertToolResultsToToon` (Mistral). -/
def mistralConvertToolResultsToToon (messages : List Msg) :
    List Msg × MistralToonStats :=
  let processed := messages.map mistralToonStep
  let counts := processed.filterMap (·.2)
  (processed.map (·.1),
   ⟨if counts.length > 0 then some ((counts.map (·.1)).sum) else none,
    if counts.length > 0 then some ((counts.map (·.2)).sum) else none⟩)

/-- The message component of a MiniMax compression step is independent of
the accumulated stats. -/
theorem minimaxToonStep_msg_const (st st' : ToolCompressionStats) (m : Msg) :
    (minimaxToonStep st m).2 = (minimaxToonStep st' m).2 := by
  cases m <;> simp only [minimaxToonStep]
  cases jsonParse (contentSerialized _) <;> simp
  split <;> simp

/-- The stats-independent message transform of the MiniMax compressor. -/
def minimaxToonMsg (m : Msg) : Msg :=
  (minimaxToonStep ⟨0, 0, 0, 0, 0⟩ m).2

theorem minimaxToonGo_messages (stats : ToolCompressionStats)
    (messages : List Msg) :
    (minimaxToonGo stats messages).1 = messages.map minimaxToonMsg := by
  induction messages generalizing stats with
  | nil => rfl
  | cons m rest ih =>
      rw [minimaxToonGo]
      simp only [List.map_cons]
      exact congrArg₂ _ (minimaxToonStep_msg_const stats ⟨0, 0, 0, 0, 0⟩ m)
        (ih _)

/-- **C5** (counterexample): the Mistral compressor substitutes the
compact encoding even when it is not strictly smaller in token count than
the original content — `"[1,2,3]"` (7 tokens) becomes `"[3]: 1,2,3"`
(10 tokens), so the message is not left untouched. -/
theorem C5_counterexample :
    tokenCount "[3]: 1,2,3" ≥ tokenCount "[1,2,3]" ∧
    (mistralConvertToolResultsToToon [.tool (.str "[1,2,3]") "c1"]).1 =
      [.tool (.str "[3]: 1,2,3") "c1"] ∧
    (.tool (.str "[3]: 1,2,3") "c1" : Msg) ≠ .tool (.str "[1,2,3]") "c1" := by
  refine ⟨by decide, by decide, by decide⟩

/-- **C5** (amended): MiniMax's `convertToolResultsToToon` leaves a tool
message untouched whenever its serialized content fails to parse as JSON
or the encoder does not report a strictly smaller compact form; Mistral's
version only skips messages whose content is not a string or fails to
parse — on parse success it substitutes without any size comparison. -/
theorem C5_toon_untouched_conditions (messages : List Msg) (model : String)
    (content : MsgContent) (id : String)
    (hskip : jsonParse (contentSerialized content) = none ∨
      ∀ v, jsonParse (contentSerialized content) = some v →
        (toonEncodeWithBudget v 4000).2 = false) :
    minimaxToonMsg (.tool content id) = .tool content id ∧
    (minimaxConvertToolResultsToToon messages model).1 =
      messages.map minimaxToonMsg ∧
    (∀ s, jsonParse (unwrapToolContent s) = none →
      (mistralToonStep (.tool (.str s) id)).1 = .tool (.str s) id) ∧
    (∀ ps, (mistralToonStep (.tool (.parts ps) id)).1 =
      .tool (.parts ps) id) ∧
    (mistralConvertToolResultsToToon messages).1 =
      messages.map (fun m => (mistralToonStep m).1) := by
  refine ⟨?_, minimaxToonGo_messages _ _, ?_, fun ps => rfl, by
    rw [mistralConvertToolResultsToToon]; simp⟩
  · rw [minimaxToonMsg, minimaxToonStep]
    rcases hp : jsonParse (contentSerialized content) with _ | v
    · simp
    · rcases hskip with hnone | himp
      · rw [hp] at hnone; exact absurd hnone (by simp)
      · simp only [himp v hp, if_false, Bool.false_eq_true]
  · intro s hs
    rw [mistralToonStep, hs]

/-- **C5** (witness): the amended theorem at a tool message whose content
does not parse as JSON; both compressors leave it untouched. -/
theorem C5_witness :
    minimaxToonMsg (.tool (.str "not json") "c2") =
      .tool (.str "not json") "c2" ∧
    (minimaxConvertToolResultsToToon [.tool (.str "not json") "c2"]
        "MiniMax-M2").1 =
      [.tool (.str "not json") "c2"].map minimaxToonMsg ∧
    (∀ s, jsonParse (unwrapToolContent s) = none →
      (mistralToonStep (.tool (.str s) "c2")).1 = .tool (.str s) "c2") ∧
    (∀ ps, (mistralToonStep (.tool (.parts ps) "c2")).1 =
      .tool (.parts ps) "c2") ∧
    (mistralConvertToolResultsToToon [.tool (.str "not json") "c2"]).1 =
      [.tool (.str "not json") "c2"].map (fun m => (mistralToonStep m).1) :=
  C5_toon_untouched_conditions [.tool (.str "not json") "c2"] "MiniMax-M2"
    (.str "not json") "c2" (Or.inl (by decide))

-- =========================================================================
-- Stream chunks and the accumulator state machine (spec §4.4)
-- =========================================================================

/-- Wire usage payload. -/
structure WireUsage where
  prompt_tokens : Nat
  completion_tokens : Nat
  total_tokens : Nat
  deriving DecidableEq

/-- The `function` fragment of a streamed tool-call delta. -/
structure ToolCallDeltaFn where
  name : Option String
  arguments : Option String
  deriving DecidableEq

/-- A streamed tool-call delta, positioned by the provider-given stream
`index` (the `fn` field embeds the wire `function` field). -/
structure ToolCallDelta where
  index : Nat
  id : Option String
  fn : Option ToolCallDeltaFn
  deriving DecidableEq

/-- The delta of a streamed choice. -/
structure ChunkDelta where
  role : Option String
  content : Option String
  tool_calls : Option (List ToolCallDelta)
  deriving DecidableEq

/-- A streamed choice. -/
structure ChunkChoice where
  index : Nat
  delta : ChunkDelta
  finish_reason : Option String
  deriving DecidableEq

/-- A stream chunk (`chat.completion.chunk`). -/
structure StreamChunk where
  id : String
  created : Int
  model : String
  choices : List ChunkChoice
  usage : Option WireUsage
  deriving DecidableEq

/-- Normalized usage view (`UsageView`). -/
structure AccUsage where
  inputTokens : Nat
  outputTokens : Nat
  deriving DecidableEq

/-- An accumulated tool call in `state.toolCalls`. -/
structure AccToolCall where
  id : String
  name : String
  arguments : String
  deriving DecidableEq

/-- `StreamAccumulatorState` plus the adapter's private
`currentToolCallIndices` map; `firstChunkSeen` stands for
`timing.firstChunkTime !== null` (wall-clock values are not modelled). -/
structure StreamState where
  responseId : String
  model : String
  text : String
  toolCalls : List AccToolCall
  rawToolCallEvents : List StreamChunk
  usage : Option AccUsage
  stopReason : Option String
  firstChunkSeen : Bool
  toolCallIndices : List (Nat × Nat)
  deriving DecidableEq

/-- The state a stream adapter's constructor builds. -/
def initStreamState : StreamState :=
  ⟨"", "", "", [], [], none, none, false, []⟩

/-- The result triple `processChunk` returns. -/
structure ChunkProcessingResult where
  sseData : Option String
  isToolCallChunk : Bool
  isFinal : Bool
  deriving DecidableEq

/-- JavaScript string truthiness of an optional string. -/
def strTruthy : Option String → Bool
  | some s => s ≠ ""
  | none => false

-- JSON rendering of a chunk, for the emitted `data: …` SSE frames
-- (optional absent fields are omitted as JSON.stringify omits undefined).

/-- Cons a field only when present. -/
def jsonObjOpt (k : String) (v : Option Json) (rest : JsonObj) : JsonObj :=
  match v with
  | some j => .cons k j rest
  | none => rest

/-- A list of values as a JSON array. -/
def listToJsonArr (f : α → Json) : List α → JsonArr
  | [] => .nil
  | x :: t => .cons (f x) (listToJsonArr f t)

/-- JSON form of a tool-call delta's `function` field. -/
def toolCallDeltaFnToJson (f : ToolCallDeltaFn) : Json :=
  .obj (jsonObjOpt "name" (f.name.map .str)
    (jsonObjOpt "arguments" (f.arguments.map .str) .nil))

/-- JSON form of a tool-call delta. -/
def toolCallDeltaToJson (d : ToolCallDelta) : Json :=
  .obj (.cons "index" (.num d.index)
    (jsonObjOpt "id" (d.id.map .str)
      (jsonObjOpt "function" (d.fn.map toolCallDeltaFnToJson) .nil)))

/-- JSON form of a chunk delta. -/
def chunkDeltaToJson (d : ChunkDelta) : Json :=
  .obj (jsonObjOpt "role" (d.role.map .str)
    (jsonObjOpt "content" (d.content.map .str)
      (jsonObjOpt "tool_calls"
        (d.tool_calls.map fun l => .arr (listToJsonArr toolCallDeltaToJson l))
        .nil)))

/-- JSON form of a streamed choice (`finish_reason` serialized as null
when absent, as on the wire). -/
def chunkChoiceToJson (c : ChunkChoice) : Json :=
  .obj (.cons "index" (.num c.index)
    (.cons "delta" (chunkDeltaToJson c.delta)
      (.cons "finish_reason"
        (match c.finish_reason with
         | some r => .str r
         | none => .null) .nil)))

/-- JSON form of a usage payload. -/
def usageToJson (u : WireUsage) : Json :=
  .obj (.cons "prompt_tokens" (.num u.prompt_tokens)
    (.cons "completion_tokens" (.num u.completion_tokens)
      (.cons "total_tokens" (.num u.total_tokens) .nil)))

/-- JSON form of a whole chunk. -/
def chunkToJson (c : StreamChunk) : Json :=
  .obj (.cons "id" (.str c.id)
    (.cons "object" (.str "chat.completion.chunk")
      (.cons "created" (.num c.created)
        (.cons "model" (.str c.model)
          (.cons "choices" (.arr (listToJsonArr chunkChoiceToJson c.choices))
            (jsonObjOpt "usage" (c.usage.map usageToJson) .nil))))))

/-- The emitted SSE frame: `` `data: ${JSON.stringify(chunk)}\n\n` ``. -/
def sseOf (c : StreamChunk) : String :=
  "data: " ++ jsonStringify (chunkToJson c) ++ "\n\n"

-- `currentToolCallIndices` (a JS `Map<number, number>`), kept in
-- insertion order as an association list.

/-- `Map.has`. -/
def mapHas (m : List (Nat × Nat)) (k : Nat) : Bool :=
  m.any fun kv => kv.1 = k

/-- `Map.get`. -/
def mapGet (m : List (Nat × Nat)) (k : Nat) : Option Nat :=
  (m.find? fun kv => kv.1 = k).map (·.2)

/-- `Map.set` (in the source only ever called for a fresh key). -/
def mapSet (m : List (Nat × Nat)) (k v : Nat) : List (Nat × Nat) :=
  if mapHas m k then m.map fun kv => if kv.1 = k then (k, v) else kv
  else m ++ [(k, v)]

/-- In-place update of one list position (`this.state.toolCalls[i]` is
mutated through the reference). -/
def listModify : List AccToolCall → Nat → (AccToolCall → AccToolCall) →
    List AccToolCall
  | [], _, _ => []
  | x :: t, 0, f => f x :: t
  | x :: t, n + 1, f => x :: listModify t n f

/-- The per-delta body of the `for (const toolCallDelta of delta.tool_calls)`
loop, shared verbatim by both stream adapters: allocate a slot on first
occurrence of the index, then merge `id`/`name` by overwrite-if-truthy and
append any `arguments` fragment. -/
def applyToolCallDelta (acc : List AccToolCall × List (Nat × Nat))
    (d : ToolCallDelta) : List AccToolCall × List (Nat × Nat) :=
  let allocated :=
    if mapHas acc.2 d.index then acc
    else (acc.1 ++ [⟨d.id.getD "", (d.fn.bind (·.name)).getD "", ""⟩],
          mapSet acc.2 d.index acc.1.length)
  match mapGet allocated.2 d.index with
  | none => allocated
  | some pos =>
      (listModify allocated.1 pos fun tc =>
        let tc := if strTruthy d.id then { tc with id := d.id.getD "" } else tc
        let tc :=
          if strTruthy (d.fn.bind (·.name)) then
            { tc with name := (d.fn.bind (·.name)).getD "" }
          else tc
        if strTruthy (d.fn.bind (·.arguments)) then
          { tc with arguments :=
              tc.arguments ++ (d.fn.bind (·.arguments)).getD "" }
        else tc,
       allocated.2)

/-- `MinimaxStreamAdapter.processChunk`. -/
def minimaxProcessChunk (st : StreamState) (chunk : StreamChunk) :
    StreamState × ChunkProcessingResult :=
  let st := { st with firstChunkSeen := true }
  let st := { st with responseId := chunk.id, model := chunk.model }
  match chunk.choices.head? with
  | none => (st, ⟨none, false, false⟩)
  | some choice =>
      let delta := choice.delta
      let st :=
        if strTruthy delta.content then
          { st with text := st.text ++ delta.content.getD "" }
        else st
      let hasContent :=
        strTruthy delta.content || delta.tool_calls.isSome ||
          strTruthy delta.role
      let sseData := if hasContent then some (sseOf chunk) else none
      let stTc :=
        match delta.tool_calls with
        | some tcs =>
            let acc := tcs.foldl applyToolCallDelta
              (st.toolCalls, st.toolCallIndices)
            ({ st with
                toolCalls := acc.1, toolCallIndices := acc.2,
                rawToolCallEvents := st.rawToolCallEvents ++ [chunk] }, true)
        | none => (st, false)
      let stFin :=
        match choice.finish_reason with
        | some fr => ({ stTc.1 with stopReason := some fr }, true)
        | none => (stTc.1, false)
      let stU :=
        match chunk.usage with
        | some u =>
            { stFin.1 with usage := some ⟨u.prompt_tokens,
                u.completion_tokens⟩ }
        | none => stFin.1
      (stU, ⟨sseData, stTc.2, stFin.2⟩)

/-- `MistralStreamAdapter.processChunk`: usage is recorded before the
choices check, an empty chunk is final when usage has been seen, text
emission happens only for content deltas, and a finish reason alone does
not finalize — only recorded usage does. -/
def mistralProcessChunk (st : StreamState) (chunk : StreamChunk) :
    StreamState × ChunkProcessingResult :=
  let st := { st with firstChunkSeen := true }
  let st := { st with responseId := chunk.id, model := chunk.model }
  let st :=
    match chunk.usage with
    | some u =>
        { st with usage := some ⟨u.prompt_tokens, u.completion_tokens⟩ }
    | none => st
  match chunk.choices.head? with
  | none => (st, ⟨none, false, st.usage.isSome⟩)
  | some choice =>
      let delta := choice.delta
      let stC :=
        if strTruthy delta.content then
          ({ st with text := st.text ++ delta.content.getD "" },
           some (sseOf chunk))
        else (st, none)
      let stTc :=
        match delta.tool_calls with
        | some tcs =>
            let acc := tcs.foldl applyToolCallDelta
              (stC.1.toolCalls, stC.1.toolCallIndices)
            ({ stC.1 with
                toolCalls := acc.1, toolCallIndices := acc.2,
                rawToolCallEvents := stC.1.rawToolCallEvents ++ [chunk] },
             true)
        | none => (stC.1, false)
      let stFin :=
        match choice.finish_reason with
        | some fr => { stTc.1 with stopReason := some fr }
        | none => stTc.1
      (stFin, ⟨stC.2, stTc.2, stFin.usage.isSome⟩)

theorem string_append_empty (s : String) : s ++ "" = s := by
  cases s with
  | mk data => show String.mk (data ++ []) = String.mk data
               rw [List.append_nil]

/-- The finish reason carried by a chunk's first choice, if any. -/
def chunkFinishReason (c : StreamChunk) : Option String :=
  c.choices.head?.bind (·.finish_reason)

/-- **C6** (counterexample): a later chunk that carries a different finish
reason overwrites a previously recorded one — `stopReason` moves from
`"length"` to `"stop"`. -/
theorem C6_counterexample :
    (minimaxProcessChunk initStreamState
        ⟨"i", 0, "m", [⟨0, ⟨none, none, none⟩, some "length"⟩],
          none⟩).1.stopReason = some "length" ∧
    (minimaxProcessChunk
        (minimaxProcessChunk initStreamState
          ⟨"i", 0, "m", [⟨0, ⟨none, none, none⟩, some "length"⟩], none⟩).1
        ⟨"i", 0, "m", [⟨0, ⟨none, none, none⟩, some "stop"⟩],
          none⟩).1.stopReason = some "stop" := by
  refine ⟨by decide, by decide⟩

/-- **C6** (amended): for both stream adapters, `stopReason` after a chunk
is exactly the chunk's finish reason when it carries one and the previous
value otherwise — so once set it is never cleared (chunks that omit a
finish reason leave it unchanged), though a later explicit finish reason
does replace the value — and `text` never shrinks: each step appends. -/
theorem C6_stop_sticky_text_monotone (st : StreamState)
    (chunk : StreamChunk) :
    ((minimaxProcessChunk st chunk).1.stopReason =
      match chunkFinishReason chunk with
      | some fr => some fr
      | none => st.stopReason) ∧
    (∃ t, (minimaxProcessChunk st chunk).1.text = st.text ++ t) ∧
    ((mistralProcessChunk st chunk).1.stopReason =
      match chunkFinishReason chunk with
      | some fr => some fr
      | none => st.stopReason) ∧
    (∃ t, (mistralProcessChunk st chunk).1.text = st.text ++ t) := by
  cases hc : chunk.choices.head? with
  | none =>
      cases hu : chunk.usage <;>
        simp [minimaxProcessChunk, mistralProcessChunk, chunkFinishReason,
          hc, hu] <;>
          exact ⟨"", (string_append_empty _).symm⟩
  | some choice =>
      cases hfr : choice.finish_reason <;>
        cases ht : choice.delta.tool_calls <;>
          cases hu : chunk.usage <;>
            by_cases hcontent : strTruthy choice.delta.content = true <;>
              simp [minimaxProcessChunk, mistralProcessChunk,
                chunkFinishReason, hc, hfr, ht, hu, hcontent] <;>
                exact ⟨"", (string_append_empty _).symm⟩

/-- **C8** (counterexample, Mistral): once usage has been recorded, a
later chunk with an empty choices array and no usage is reported final —
not a no-op as claimed. -/
theorem C8_counterexample :
    (mistralProcessChunk
        (mistralProcessChunk initStreamState
          ⟨"i", 0, "m", [], some ⟨3, 5, 8⟩⟩).1
        ⟨"j", 0, "m", [], none⟩).2.isFinal = true := by decide

/-- **C8** (amended): a chunk with an empty choices array and no usage
leaves `text`, `toolCalls` and `stopReason` unchanged and emits nothing;
MiniMax always reports it non-final, while Mistral reports it final
exactly when usage has already been accumulated. -/
theorem C8_empty_chunk_noop (st : StreamState) (chunk : StreamChunk)
    (hc : chunk.choices = []) (hu : chunk.usage = none) :
    (minimaxProcessChunk st chunk).1.text = st.text ∧
    (minimaxProcessChunk st chunk).1.toolCalls = st.toolCalls ∧
    (minimaxProcessChunk st chunk).1.stopReason = st.stopReason ∧
    (minimaxProcessChunk st chunk).2 = ⟨none, false, false⟩ ∧
    (mistralProcessChunk st chunk).1.text = st.text ∧
    (mistralProcessChunk st chunk).1.toolCalls = st.toolCalls ∧
    (mistralProcessChunk st chunk).1.stopReason = st.stopReason ∧
    (mistralProcessChunk st chunk).2 = ⟨none, false, st.usage.isSome⟩ := by
  simp [minimaxProcessChunk, mistralProcessChunk, hc, hu]

/-- **C8** (witness): a fresh adapter fed one empty chunk. -/
theorem C8_witness :
    (minimaxProcessChunk initStreamState ⟨"x", 0, "m", [], none⟩).1.text =
      initStreamState.text ∧
    (minimaxProcessChunk initStreamState
        ⟨"x", 0, "m", [], none⟩).1.toolCalls = initStreamState.toolCalls ∧
    (minimaxProcessChunk initStreamState
        ⟨"x", 0, "m", [], none⟩).1.stopReason = initStreamState.stopReason ∧
    (minimaxProcessChunk initStreamState ⟨"x", 0, "m", [], none⟩).2 =
      ⟨none, false, false⟩ ∧
    (mistralProcessChunk initStreamState ⟨"x", 0, "m", [], none⟩).1.text =
      initStreamState.text ∧
    (mistralProcessChunk initStreamState
        ⟨"x", 0, "m", [], none⟩).1.toolCalls = initStreamState.toolCalls ∧
    (mistralProcessChunk initStreamState
        ⟨"x", 0, "m", [], none⟩).1.stopReason = initStreamState.stopReason ∧
    (mistralProcessChunk initStreamState ⟨"x", 0, "m", [], none⟩).2 =
      ⟨none, false, initStreamState.usage.isSome⟩ :=
  C8_empty_chunk_noop initStreamState ⟨"x", 0, "m", [], none⟩ rfl rfl

-- =========================================================================
-- Completed responses, response adapters (§4.3), stream finalization
-- =========================================================================

/-- A completed response's tool call
(`{id, type: "function", function: {name, arguments}}`). -/
structure RespToolCall where
  id : String
  name : String
  arguments : String
  deriving DecidableEq

/-- A completed response's assistant message. -/
structure RespMessage where
  role : String
  content : Option String
  tool_calls : Option (List RespToolCall)
  deriving DecidableEq

/-- A completed response's choice; `index` is optional because the
refusal constructor spreads a possibly absent `choices[0]`. -/
structure RespChoice where
  index : Option Nat
  message : RespMessage
  finish_reason : Option String
  deriving DecidableEq

/-- A completed chat-completions response. -/
structure ProviderResponse where
  id : String
  created : Int
  model : String
  choices : List RespChoice
  usage : Option WireUsage
  deriving DecidableEq

/-- `MinimaxResponseAdapter.toRefusalResponse`: spread of the original
response with a single rebuilt choice — the assistant message holds only
`contentMessage` (no `tool_calls` field) and `finish_reason` is forced to
`"stop"`; the `refusalMessage` argument is unused. -/
def minimaxToRefusalResponse (r : ProviderResponse)
    (_refusalMessage contentMessage : String) : ProviderResponse :=
  { r with choices :=
      [⟨r.choices.head?.bind (·.index),
        ⟨"assistant", some contentMessage, none⟩, some "stop"⟩] }

/-- `MistralResponseAdapter.toRefusalResponse` (its message spells
`tool_calls: undefined` explicitly — the same absent field). -/
def mistralToRefusalResponse (r : ProviderResponse)
    (_refusalMessage contentMessage : String) : ProviderResponse :=
  { r with choices :=
      [⟨r.choices.head?.bind (·.index),
        ⟨"assistant", some contentMessage, none⟩, some "stop"⟩] }

/-- **C4**: for every completed response, `toRefusalResponse` replaces the
assistant message's content with `contentMessage`, forces `finish_reason`
to `"stop"`, carries no tool calls, and preserves the response envelope —
for both adapters. -/
theorem C4_refusal_replaces_choice (r : ProviderResponse)
    (refusalMessage contentMessage : String) :
    (minimaxToRefusalResponse r refusalMessage contentMessage).choices =
      [⟨r.choices.head?.bind (·.index),
        ⟨"assistant", some contentMessage, none⟩, some "stop"⟩] ∧
    (minimaxToRefusalResponse r refusalMessage contentMessage).id = r.id ∧
    (minimaxToRefusalResponse r refusalMessage contentMessage).model =
      r.model ∧
    (minimaxToRefusalResponse r refusalMessage contentMessage).usage =
      r.usage ∧
    (mistralToRefusalResponse r refusalMessage contentMessage).choices =
      [⟨r.choices.head?.bind (·.index),
        ⟨"assistant", some contentMessage, none⟩, some "stop"⟩] ∧
    (mistralToRefusalResponse r refusalMessage contentMessage).id = r.id ∧
    (mistralToRefusalResponse r refusalMessage contentMessage).model =
      r.model ∧
    (mistralToRefusalResponse r refusalMessage contentMessage).usage =
      r.usage :=
  ⟨rfl, rfl, rfl, rfl, rfl, rfl, rfl, rfl⟩

/-- `MinimaxStreamAdapter.toProviderResponse` (`now` models the
`Date.now()` read for `created`). -/
def minimaxToProviderResponse (st : StreamState) (now : Int) :
    ProviderResponse :=
  let toolCalls :=
    if st.toolCalls.length > 0 then
      some (st.toolCalls.map fun tc =>
        (⟨tc.id, tc.name, tc.arguments⟩ : RespToolCall))
    else none
  { id := st.responseId, created := now, model := st.model,
    choices :=
      [⟨some 0,
        ⟨"assistant", if st.text ≠ "" then some st.text else none,
          toolCalls⟩,
        some (st.stopReason.getD "stop")⟩],
    usage := some ⟨(st.usage.map (·.inputTokens)).getD 0,
      (st.usage.map (·.outputTokens)).getD 0,
      (st.usage.map (·.inputTokens)).getD 0 +
        (st.usage.map (·.outputTokens)).getD 0⟩ }

/-- `MistralStreamAdapter.toProviderResponse` (textually identical). -/
def mistralToProviderResponse (st : StreamState) (now : Int) :
    ProviderResponse :=
  minimaxToProviderResponse st now

/-- **C3**: `toProviderResponse()` finalizes the accumulator with
`finish_reason = stopReason ?? "stop"`, usage fields defaulting to 0, and
a `tool_calls` array exactly when at least one tool call was accumulated —
for both stream adapters. -/
theorem C3_finalization_defaults (st : StreamState) (now : Int) :
    ((minimaxToProviderResponse st now).choices.map (·.finish_reason) =
      [some (st.stopReason.getD "stop")]) ∧
    ((minimaxToProviderResponse st now).usage =
      some ⟨(st.usage.map (·.inputTokens)).getD 0,
        (st.usage.map (·.outputTokens)).getD 0,
        (st.usage.map (·.inputTokens)).getD 0 +
          (st.usage.map (·.outputTokens)).getD 0⟩) ∧
    ((minimaxToProviderResponse st now).choices.map
        (·.message.tool_calls) =
      [if st.toolCalls.length > 0 then
        some (st.toolCalls.map fun tc =>
          (⟨tc.id, tc.name, tc.arguments⟩ : RespToolCall))
       else none]) ∧
    (((minimaxToProviderResponse st now).choices.map
        (·.message.tool_calls) = [none]) ↔ st.toolCalls = []) ∧
    ((mistralToProviderResponse st now).choices.map (·.finish_reason) =
      [some (st.stopReason.getD "stop")]) ∧
    ((mistralToProviderResponse st now).usage =
      some ⟨(st.usage.map (·.inputTokens)).getD 0,
        (st.usage.map (·.outputTokens)).getD 0,
        (st.usage.map (·.inputTokens)).getD 0 +
          (st.usage.map (·.outputTokens)).getD 0⟩) ∧
    ((mistralToProviderResponse st now).choices.map
        (·.message.tool_calls) =
      [if st.toolCalls.length > 0 then
        some (st.toolCalls.map fun tc =>
          (⟨tc.id, tc.name, tc.arguments⟩ : RespToolCall))
       else none]) ∧
    (((mistralToProviderResponse st now).choices.map
        (·.message.tool_calls) = [none]) ↔ st.toolCalls = []) := by
  have htc : ∀ u : Unit,
      ((minimaxToProviderResponse st now).choices.map
        (·.message.tool_calls) = [none]) ↔ st.toolCalls = [] := by
    intro _
    rw [minimaxToProviderResponse]
    cases st.toolCalls with
    | nil => simp
    | cons a t => simp
  refine ⟨rfl, rfl, rfl, htc (), rfl, rfl, rfl, htc ()⟩

-- =========================================================================
-- C2: streamed tool-call accumulation
-- =========================================================================

/-- The tool-call deltas a chunk contributes to accumulation: those of its
first choice, when the chunk has choices and the delta carries the field. -/
def chunkToolDeltas (c : StreamChunk) : List ToolCallDelta :=
  match c.choices.head? with
  | some ch => ch.delta.tool_calls.getD []
  | none => []

/-- Spec side: the stream indices in order of first mention. -/
def seenIndices (ds : List ToolCallDelta) : List Nat :=
  ds.foldl (fun acc d => if d.index ∈ acc then acc else acc ++ [d.index]) []

/-- Spec side: the last truthy `id` carried for index `i` (else empty). -/
def specId (ds : List ToolCallDelta) (i : Nat) : String :=
  (ds.filter fun d => d.index = i).foldl
    (fun acc d => if strTruthy d.id then d.id.getD "" else acc) ""

/-- Spec side: the last truthy `name` carried for index `i` (else empty). -/
def specName (ds : List ToolCallDelta) (i : Nat) : String :=
  (ds.filter fun d => d.index = i).foldl
    (fun acc d =>
      if strTruthy (d.fn.bind (·.name)) then (d.fn.bind (·.name)).getD ""
      else acc) ""

/-- Spec side: the concatenation of index `i`'s argument fragments in
arrival order. -/
def specArgs (ds : List ToolCallDelta) (i : Nat) : String :=
  (ds.filter fun d => d.index = i).foldl
    (fun acc d => acc ++ (d.fn.bind (·.arguments)).getD "") ""

/-- Spec side: one accumulated slot per index, in first-mention order. -/
def specToolCalls (ds : List ToolCallDelta) : List AccToolCall :=
  (seenIndices ds).map fun i => ⟨specId ds i, specName ds i, specArgs ds i⟩

/-- Positions of a list of indices, starting at `p`. -/
def indexMapOf : List Nat → Nat → List (Nat × Nat)
  | [], _ => []
  | i :: t, p => (i, p) :: indexMapOf t (p + 1)

/-- Spec side: the index-to-slot map the adapter should hold. -/
def specIndexMap (ds : List ToolCallDelta) : List (Nat × Nat) :=
  indexMapOf (seenIndices ds) 0

/-- First position of `i`. -/
def posOf? (i : Nat) : List Nat → Option Nat
  | [] => none
  | j :: t => if j = i then some 0 else (posOf? i t).map (· + 1)

theorem seenIndices_append_singleton (ds : List ToolCallDelta)
    (d : ToolCallDelta) :
    seenIndices (ds ++ [d]) =
      if d.index ∈ seenIndices ds then seenIndices ds
      else seenIndices ds ++ [d.index] := by
  simp [seenIndices, List.foldl_append]

theorem specId_append_singleton (ds : List ToolCallDelta)
    (d : ToolCallDelta) (i : Nat) :
    specId (ds ++ [d]) i =
      if d.index = i then
        (if strTruthy d.id then d.id.getD "" else specId ds i)
      else specId ds i := by
  by_cases h : d.index = i <;>
    simp [specId, List.filter_append, h, List.foldl_append]

theorem specName_append_singleton (ds : List ToolCallDelta)
    (d : ToolCallDelta) (i : Nat) :
    specName (ds ++ [d]) i =
      if d.index = i then
        (if strTruthy (d.fn.bind (·.name)) then (d.fn.bind (·.name)).getD ""
         else specName ds i)
      else specName ds i := by
  by_cases h : d.index = i <;>
    simp [specName, List.filter_append, h, List.foldl_append]

theorem specArgs_append_singleton (ds : List ToolCallDelta)
    (d : ToolCallDelta) (i : Nat) :
    specArgs (ds ++ [d]) i =
      if d.index = i then specArgs ds i ++ (d.fn.bind (·.arguments)).getD ""
      else specArgs ds i := by
  by_cases h : d.index = i <;>
    simp [specArgs, List.filter_append, h, List.foldl_append]

theorem mem_seen_step (acc : List Nat) (d : ToolCallDelta) (i : Nat) :
    (i ∈ if d.index ∈ acc then acc else acc ++ [d.index]) ↔
      i ∈ acc ∨ d.index = i := by
  by_cases h : d.index ∈ acc
  · rw [if_pos h]
    constructor
    · exact Or.inl
    · rintro (h1 | rfl)
      · exact h1
      · exact h
  · rw [if_neg h]
    simp [List.mem_append, eq_comm]

theorem mem_seenIndices_aux (ds : List ToolCallDelta) (acc : List Nat)
    (i : Nat) :
    (i ∈ ds.foldl
        (fun acc d => if d.index ∈ acc then acc else acc ++ [d.index])
        acc) ↔
      i ∈ acc ∨ ∃ d ∈ ds, d.index = i := by
  induction ds generalizing acc with
  | nil => simp
  | cons d rest ih =>
      rw [List.foldl_cons, ih, mem_seen_step]
      constructor
      · rintro ((h1 | h1) | ⟨e, he, hei⟩)
        · exact Or.inl h1
        · exact Or.inr ⟨d, List.mem_cons_self _ _, h1⟩
        · exact Or.inr ⟨e, List.mem_cons_of_mem _ he, hei⟩
      · rintro (h1 | ⟨e, he, hei⟩)
        · exact Or.inl (Or.inl h1)
        · rcases List.mem_cons.mp he with rfl | h2
          · exact Or.inl (Or.inr hei)
          · exact Or.inr ⟨e, h2, hei⟩

theorem mem_seenIndices (ds : List ToolCallDelta) (i : Nat) :
    i ∈ seenIndices ds ↔ ∃ d ∈ ds, d.index = i := by
  rw [seenIndices, mem_seenIndices_aux]
  simp

theorem filter_eq_nil_of_not_seen {ds : List ToolCallDelta} {i : Nat}
    (h : i ∉ seenIndices ds) : ds.filter (fun d => d.index = i) = [] := by
  rw [List.filter_eq_nil_iff]
  intro d hd
  simp only [decide_eq_true_eq]
  intro hi
  exact h ((mem_seenIndices ds i).mpr ⟨d, hd, hi⟩)

theorem seenIndices_nodup_aux (ds : List ToolCallDelta) (acc : List Nat)
    (hacc : acc.Nodup) :
    (ds.foldl
        (fun acc d => if d.index ∈ acc then acc else acc ++ [d.index])
        acc).Nodup := by
  induction ds generalizing acc with
  | nil => exact hacc
  | cons d rest ih =>
      rw [List.foldl_cons]
      refine ih _ ?_
      by_cases h : d.index ∈ acc
      · rw [if_pos h]; exact hacc
      · rw [if_neg h]
        exact List.Nodup.append hacc (List.nodup_singleton _)
          (by simpa [List.disjoint_singleton] using h)

theorem seenIndices_nodup (ds : List ToolCallDelta) :
    (seenIndices ds).Nodup :=
  seenIndices_nodup_aux ds [] List.nodup_nil

theorem indexMapOf_append_singleton (l : List Nat) (i p : Nat) :
    indexMapOf (l ++ [i]) p = indexMapOf l p ++ [(i, p + l.length)] := by
  induction l generalizing p with
  | nil => simp [indexMapOf]
  | cons j t ih =>
      rw [List.cons_append, indexMapOf, ih, indexMapOf]
      simp [Nat.add_comm, Nat.add_assoc, Nat.add_left_comm]

theorem mapHas_indexMapOf (l : List Nat) (p i : Nat) :
    mapHas (indexMapOf l p) i = true ↔ i ∈ l := by
  induction l generalizing p with
  | nil => simp [indexMapOf, mapHas]
  | cons j t ih =>
      rw [indexMapOf]
      simp only [mapHas, List.any_cons, Bool.or_eq_true, decide_eq_true_eq]
      rw [List.mem_cons]
      constructor
      · rintro (h | h)
        · exact Or.inl h.symm
        · exact Or.inr ((ih (p + 1)).mp (by simpa [mapHas] using h))
      · rintro (rfl | h)
        · exact Or.inl rfl
        · exact Or.inr (by simpa [mapHas] using (ih (p + 1)).mpr h)

theorem mapGet_indexMapOf (l : List Nat) (p i : Nat) :
    mapGet (indexMapOf l p) i = (posOf? i l).map (· + p) := by
  induction l generalizing p with
  | nil => simp [indexMapOf, mapGet, posOf?]
  | cons j t ih =>
      rw [indexMapOf, posOf?]
      by_cases h : j = i
      · simp [mapGet, List.find?_cons, h]
      · rw [if_neg h]
        have hstep : mapGet ((j, p) :: indexMapOf t (p + 1)) i =
            mapGet (indexMapOf t (p + 1)) i := by
          simp [mapGet, List.find?_cons, h]
        rw [hstep, ih]
        cases posOf? i t <;> simp [Nat.add_comm, Nat.add_assoc,
          Nat.add_left_comm]

theorem posOf?_of_mem {l : List Nat} {i : Nat} (h : i ∈ l) :
    ∃ p, posOf? i l = some p := by
  induction l with
  | nil => simp at h
  | cons j t ih =>
      rw [posOf?]
      by_cases hj : j = i
      · exact ⟨0, by rw [if_pos hj]⟩
      · rcases List.mem_cons.mp h with rfl | h2
        · exact absurd rfl hj
        · obtain ⟨p, hp⟩ := ih h2
          exact ⟨p + 1, by rw [if_neg hj, hp]; rfl⟩

theorem listModify_append_length (l : List AccToolCall) (x : AccToolCall)
    (g : AccToolCall → AccToolCall) :
    listModify (l ++ [x]) l.length g = l ++ [g x] := by
  induction l with
  | nil => rfl
  | cons a t ih => rw [List.cons_append, List.length_cons, listModify, ih]; rfl

theorem mapGet_append_new {m : List (Nat × Nat)} {k : Nat} (v : Nat)
    (h : mapHas m k = false) : mapGet (m ++ [(k, v)]) k = some v := by
  induction m with
  | nil => simp [mapGet, List.find?_cons]
  | cons kv t ih =>
      rw [mapHas, List.any_cons] at h
      simp only [Bool.or_eq_false_iff] at h
      have hstep : mapGet ((kv :: t) ++ [(k, v)]) k =
          mapGet (t ++ [(k, v)]) k := by
        simp [mapGet, List.find?_cons, h.1]
      rw [hstep]
      exact ih h.2

theorem listModify_map {l : List Nat} {p i : Nat}
    (f : Nat → AccToolCall) (g : AccToolCall → AccToolCall)
    (hnd : l.Nodup) (hp : posOf? i l = some p) :
    listModify (l.map f) p g =
      l.map fun j => if j = i then g (f j) else f j := by
  induction l generalizing p with
  | nil => simp [posOf?] at hp
  | cons j t ih =>
      rw [posOf?] at hp
      by_cases hj : j = i
      · rw [if_pos hj] at hp
        injection hp with hp0
        subst hp0
        subst hj
        rw [List.map_cons, listModify, List.map_cons, if_pos rfl]
        congr 1
        refine (List.map_congr_left ?_).symm
        intro k hk
        rw [if_neg]
        rintro rfl
        exact (List.nodup_cons.mp hnd).1 hk
      · rw [if_neg hj] at hp
        cases hq : posOf? i t with
        | none => rw [hq] at hp; simp at hp
        | some q =>
            rw [hq] at hp
            simp only [Option.map_some'] at hp
            injection hp with hp1
            rw [List.map_cons, ← hp1, listModify, List.map_cons, if_neg hj]
            congr 1
            exact ih (List.nodup_cons.mp hnd).2 hq

theorem getD_empty_of_not_truthy {o : Option String}
    (h : ¬ strTruthy o = true) : o.getD "" = "" := by
  cases o with
  | none => rfl
  | some s =>
      simp only [strTruthy, ne_eq, decide_not, Bool.not_eq_true] at h
      have : s = "" := by
        by_contra hne
        rw [decide_eq_false hne] at h
        simp at h
      simp [this]

theorem string_empty_append (s : String) : "" ++ s = s := by
  cases s with
  | mk data => rfl

theorem specToolCalls_length (ds : List ToolCallDelta) :
    (specToolCalls ds).length = (seenIndices ds).length := by
  simp [specToolCalls]

theorem applyToolCallDelta_spec (ds : List ToolCallDelta)
    (d : ToolCallDelta) :
    applyToolCallDelta (specToolCalls ds, specIndexMap ds) d =
      (specToolCalls (ds ++ [d]), specIndexMap (ds ++ [d])) := by
  by_cases hmem : d.index ∈ seenIndices ds
  · have hhas : mapHas (specIndexMap ds) d.index = true :=
      (mapHas_indexMapOf _ 0 _).mpr hmem
    obtain ⟨p, hp⟩ := posOf?_of_mem hmem
    have hget : mapGet (specIndexMap ds) d.index = some p := by
      rw [specIndexMap, mapGet_indexMapOf, hp]; simp
    have hseen : seenIndices (ds ++ [d]) = seenIndices ds := by
      rw [seenIndices_append_singleton, if_pos hmem]
    simp only [applyToolCallDelta, hhas, if_true, hget]
    refine Prod.ext ?_ ?_
    · show listModify (specToolCalls ds) p _ = specToolCalls (ds ++ [d])
      rw [specToolCalls, listModify_map _ _ (seenIndices_nodup ds) hp]
      rw [show specToolCalls (ds ++ [d]) =
          (seenIndices ds).map fun i =>
            (⟨specId (ds ++ [d]) i, specName (ds ++ [d]) i,
              specArgs (ds ++ [d]) i⟩ : AccToolCall) by
        rw [specToolCalls, hseen]]
      refine List.map_congr_left ?_
      intro j hj
      by_cases hji : j = d.index
      · subst hji
        rw [if_pos rfl]
        by_cases h1 : strTruthy d.id = true <;>
          by_cases h2 : strTruthy (d.fn.bind (·.name)) = true <;>
            by_cases h3 : strTruthy (d.fn.bind (·.arguments)) = true <;>
              simp [h1, h2, h3, specId_append_singleton,
                specName_append_singleton, specArgs_append_singleton,
                string_append_empty,
                getD_empty_of_not_truthy]
      · rw [if_neg hji]
        have hdj : ¬ (d.index = j) := fun h => hji h.symm
        simp [specId_append_singleton, specName_append_singleton,
          specArgs_append_singleton, hdj]
    · show specIndexMap ds = specIndexMap (ds ++ [d])
      rw [specIndexMap, specIndexMap, hseen]
  · have hhas : mapHas (specIndexMap ds) d.index = false := by
      rcases hb : mapHas (specIndexMap ds) d.index with _ | _
      · rfl
      · exact absurd ((mapHas_indexMapOf _ 0 _).mp hb) hmem
    have hseen : seenIndices (ds ++ [d]) =
        seenIndices ds ++ [d.index] := by
      rw [seenIndices_append_singleton, if_neg hmem]
    have hid0 : specId ds d.index = "" := by
      rw [specId, filter_eq_nil_of_not_seen hmem]; rfl
    have hname0 : specName ds d.index = "" := by
      rw [specName, filter_eq_nil_of_not_seen hmem]; rfl
    have hargs0 : specArgs ds d.index = "" := by
      rw [specArgs, filter_eq_nil_of_not_seen hmem]; rfl
    simp only [applyToolCallDelta, hhas, Bool.false_eq_true, if_false,
      mapSet, mapGet_append_new _ hhas]
    refine Prod.ext ?_ ?_
    · show listModify (specToolCalls ds ++ [_]) (specToolCalls ds).length _ =
        specToolCalls (ds ++ [d])
      rw [listModify_append_length]
      have hrhs : specToolCalls (ds ++ [d]) =
          List.map (fun i => (⟨specId (ds ++ [d]) i, specName (ds ++ [d]) i,
            specArgs (ds ++ [d]) i⟩ : AccToolCall)) (seenIndices ds) ++
            [⟨specId (ds ++ [d]) d.index, specName (ds ++ [d]) d.index,
              specArgs (ds ++ [d]) d.index⟩] := by
        rw [specToolCalls, hseen, List.map_append, List.map_singleton]
      rw [hrhs]
      refine congrArg₂ _ ?_ ?_
      · rw [specToolCalls]
        refine List.map_congr_left ?_
        intro j hj
        have hdj : ¬ (d.index = j) := fun h => hmem (h ▸ hj)
        simp [specId_append_singleton, specName_append_singleton,
          specArgs_append_singleton, hdj]
      · by_cases h1 : strTruthy d.id = true <;>
          by_cases h2 : strTruthy (d.fn.bind (·.name)) = true <;>
            by_cases h3 : strTruthy (d.fn.bind (·.arguments)) = true <;>
              simp [h1, h2, h3, specId_append_singleton,
                specName_append_singleton, specArgs_append_singleton,
                hid0, hname0, hargs0, string_empty_append,
                getD_empty_of_not_truthy]
    · show specIndexMap ds ++ [(d.index, (specToolCalls ds).length)] =
        specIndexMap (ds ++ [d])
      have hrhs2 : specIndexMap (ds ++ [d]) = indexMapOf (seenIndices ds) 0
          ++ [(d.index, 0 + (seenIndices ds).length)] := by
        rw [specIndexMap, hseen, indexMapOf_append_singleton]
      rw [hrhs2, specToolCalls_length, specIndexMap]
      simp

theorem foldl_applyToolCallDelta_spec (ds : List ToolCallDelta) :
    ds.foldl applyToolCallDelta ([], []) =
      (specToolCalls ds, specIndexMap ds) := by
  induction ds using List.reverseRecOn with
  | nil => rfl
  | append_singleton ds d ih =>
      rw [List.foldl_append, ih, List.foldl_cons, List.foldl_nil]
      exact applyToolCallDelta_spec ds d

/-- The tool-call/index components of one MiniMax chunk step are the fold
of the per-delta loop body over the chunk's deltas. -/
theorem minimaxProcessChunk_toolCalls (st : StreamState)
    (c : StreamChunk) :
    ((minimaxProcessChunk st c).1.toolCalls,
      (minimaxProcessChunk st c).1.toolCallIndices) =
      (chunkToolDeltas c).foldl applyToolCallDelta
        (st.toolCalls, st.toolCallIndices) := by
  cases hc : c.choices.head? with
  | none => simp [minimaxProcessChunk, chunkToolDeltas, hc]
  | some choice =>
      cases hfr : choice.finish_reason <;>
        cases ht : choice.delta.tool_calls <;>
          cases hu : c.usage <;>
            by_cases hcontent : strTruthy choice.delta.content = true <;>
              simp [minimaxProcessChunk, chunkToolDeltas, hc, hfr, ht, hu,
                hcontent]

/-- The Mistral counterpart of `minimaxProcessChunk_toolCalls`. -/
theorem mistralProcessChunk_toolCalls (st : StreamState)
    (c : StreamChunk) :
    ((mistralProcessChunk st c).1.toolCalls,
      (mistralProcessChunk st c).1.toolCallIndices) =
      (chunkToolDeltas c).foldl applyToolCallDelta
        (st.toolCalls, st.toolCallIndices) := by
  cases hc : c.choices.head? with
  | none => cases hu : c.usage <;>
      simp [mistralProcessChunk, chunkToolDeltas, hc, hu]
  | some choice =>
      cases hfr : choice.finish_reason <;>
        cases ht : choice.delta.tool_calls <;>
          cases hu : c.usage <;>
            by_cases hcontent : strTruthy choice.delta.content = true <;>
              simp [mistralProcessChunk, chunkToolDeltas, hc, hfr, ht, hu,
                hcontent]

/-- Feed a whole stream of chunks to the MiniMax adapter. -/
def minimaxRunChunks (st : StreamState) (chunks : List StreamChunk) :
    StreamState :=
  chunks.foldl (fun s c => (minimaxProcessChunk s c).1) st

/-- Feed a whole stream of chunks to the Mistral adapter. -/
def mistralRunChunks (st : StreamState) (chunks : List StreamChunk) :
    StreamState :=
  chunks.foldl (fun s c => (mistralProcessChunk s c).1) st

/-- All tool-call deltas a stream of chunks contributes, in arrival order. -/
def allToolDeltas (chunks : List StreamChunk) : List ToolCallDelta :=
  (chunks.map chunkToolDeltas).flatten

theorem minimaxRunChunks_toolCalls (chunks : List StreamChunk)
    (st : StreamState) :
    ((minimaxRunChunks st chunks).toolCalls,
      (minimaxRunChunks st chunks).toolCallIndices) =
      (allToolDeltas chunks).foldl applyToolCallDelta
        (st.toolCalls, st.toolCallIndices) := by
  induction chunks generalizing st with
  | nil => rfl
  | cons c rest ih =>
      rw [minimaxRunChunks, List.foldl_cons]
      rw [show List.foldl (fun s c => (minimaxProcessChunk s c).1)
          (minimaxProcessChunk st c).1 rest =
          minimaxRunChunks (minimaxProcessChunk st c).1 rest from rfl]
      rw [ih, minimaxProcessChunk_toolCalls]
      rw [show allToolDeltas (c :: rest) =
          chunkToolDeltas c ++ allToolDeltas rest from by
        rw [allToolDeltas, List.map_cons, List.flatten_cons]; rfl]
      rw [List.foldl_append]

theorem mistralRunChunks_toolCalls (chunks : List StreamChunk)
    (st : StreamState) :
    ((mistralRunChunks st chunks).toolCalls,
      (mistralRunChunks st chunks).toolCallIndices) =
      (allToolDeltas chunks).foldl applyToolCallDelta
        (st.toolCalls, st.toolCallIndices) := by
  induction chunks generalizing st with
  | nil => rfl
  | cons c rest ih =>
      rw [mistralRunChunks, List.foldl_cons]
      rw [show List.foldl (fun s c => (mistralProcessChunk s c).1)
          (mistralProcessChunk st c).1 rest =
          mistralRunChunks (mistralProcessChunk st c).1 rest from rfl]
      rw [ih, mistralProcessChunk_toolCalls]
      rw [show allToolDeltas (c :: rest) =
          chunkToolDeltas c ++ allToolDeltas rest from by
        rw [allToolDeltas, List.map_cons, List.flatten_cons]; rfl]
      rw [List.foldl_append]

/-- **C2**: feeding any stream of chunks to either adapter accumulates,
per provider stream index in order of first mention, exactly one slot
whose `id`/`name` are the last truthy values carried for that index and
whose `arguments` is the concatenation of that index's fragments in
arrival order (`specId`/`specName`/`specArgs`), with the private index
map giving each index its allocation position. -/
theorem C2_stream_tool_call_accumulation (chunks : List StreamChunk) :
    (minimaxRunChunks initStreamState chunks).toolCalls =
      specToolCalls (allToolDeltas chunks) ∧
    (minimaxRunChunks initStreamState chunks).toolCallIndices =
      specIndexMap (allToolDeltas chunks) ∧
    (mistralRunChunks initStreamState chunks).toolCalls =
      specToolCalls (allToolDeltas chunks) ∧
    (mistralRunChunks initStreamState chunks).toolCallIndices =
      specIndexMap (allToolDeltas chunks) := by
  have h1 := minimaxRunChunks_toolCalls chunks initStreamState
  have h2 := mistralRunChunks_toolCalls chunks initStreamState
  rw [show initStreamState.toolCalls = [] from rfl,
    show initStreamState.toolCallIndices = [] from rfl,
    foldl_applyToolCallDelta_spec] at h1 h2
  exact ⟨congrArg Prod.fst h1, congrArg Prod.snd h1,
    congrArg Prod.fst h2, congrArg Prod.snd h2⟩
